import Mathlib

/-!
# GeneralUtils: LRUCache and ThreadSafeContainer

A shallow embedding of `include/LRUCache.hpp` and `include/ThreadSafeContainer.hpp`.

* `std::list<KeyType>` is a list of nodes. Every node carries a handle (a natural number standing
  for the node's address); a `std::list` iterator is the handle of the node it points to, and
  `end()` is the absence of a handle. Handles are handed out by a counter, so a node keeps its
  handle while other nodes are inserted or erased, as `std::list` guarantees for its iterators.
* `std::unordered_map<KeyType, std::pair<ValueType, iterator>>` is an association list.
* An operation whose C++ behaviour is undefined (decrementing `end()` of an empty list, erasing
  through an iterator that points to no node of the list) returns `none`.
* `std::vector<ValueType>` is the list of its elements together with its capacity. Its
  `operator[]` makes no bounds check: a store at an index from `size()` up to `capacity()` lands
  in the unused part of the storage and leaves the elements as they are (`ValueType` is
  trivially copyable, as in the tests); a store at or beyond `capacity()` lands outside the
  storage, and `Outcome.undefined` says that the embedding determines nothing about it.
* The two `reserve` calls (`_map.reserve` in the cache constructor, `_container.reserve` in
  `ThreadSafeContainer::reserve`) ask for a caller-chosen amount of storage and fail as the
  library specifies, `std::length_error` above `max_size()` and `std::bad_alloc` when the
  allocator cannot provide the storage; these limits of the platform are parameters. Growth by
  one element in `put` and `push_back` is taken to succeed. Sizes are natural numbers.
* Calls are sequential: each member function of `ThreadSafeContainer` is one step on the vector,
  the mutex it holds meanwhile is not part of the state.
-/

set_option linter.unusedSectionVars false

namespace GeneralUtils

/-- The exceptions thrown by the library. -/
inductive Error where
  | invalid_argument (what : String)
  | bad_alloc
  | length_error
  deriving DecidableEq, Repr

/-! ## `std::list` with stable iterators -/

/-- Models `_list.begin()`: the handle of the first node, `none` (that is `end()`) on an empty list. -/
def listBegin {K : Type} (l : List (Nat × K)) : Option Nat :=
  l.head?.map Prod.fst

/-- Models `_list.erase(j)`: unlink the node with handle `j`; undefined when no node has that handle. -/
def listErase {K : Type} (l : List (Nat × K)) (j : Nat) : Option (List (Nat × K)) :=
  if l.any (fun nd => nd.1 == j) then some (l.eraseP (fun nd => nd.1 == j)) else none

/-! ## `std::unordered_map` -/

/-- Models `_map.find(key)`: the mapped value of `key`, `none` for `_map.end()`. -/
def mapFind {K B : Type} [DecidableEq K] (m : List (K × B)) (key : K) : Option B :=
  (m.find? (fun e => e.1 == key)).map Prod.snd

/-- Models `_map.erase(key)`: remove the entry of `key`, if there is one. -/
def mapErase {K B : Type} [DecidableEq K] (m : List (K × B)) (key : K) : List (K × B) :=
  m.eraseP (fun e => e.1 == key)

/-- Models `_map[key] = b`: overwrite the mapped value of `key`, inserting the entry when it is new. -/
def mapAssign {K B : Type} [DecidableEq K] (m : List (K × B)) (key : K) (b : B) : List (K × B) :=
  if (mapFind m key).isSome then m.map (fun e => if e.1 = key then (e.1, b) else e)
  else (key, b) :: m

/-! ## `LRUCache` -/

/-- The fields of `LRUCache<KeyType, ValueType>`; `_fresh` is the next unused node handle. -/
structure LRUCache (K V : Type) where
  _list : List (Nat × K)
  _map : List (K × (V × Nat))
  _limit_size : Nat
  _fresh : Nat
  deriving DecidableEq, Repr

namespace LRUCache

variable {K V : Type} [DecidableEq K]

/-- Constructor `LRUCache(size_t size)`: throws `std::invalid_argument` when `size` is 0, then
calls `_map.reserve(_limit_size)`, which allocates the bucket array for `size` elements and
throws `std::bad_alloc` when the allocator cannot provide it. The largest bucket count the
allocator can provide is the parameter `max_alloc`. -/
def new (max_alloc : Nat) (size : Nat) : Except Error (LRUCache K V) :=
  if size = 0 then .error (.invalid_argument "Cache size must be greater than 0")
  else if max_alloc < size then .error .bad_alloc
  else .ok { _list := [], _map := [], _limit_size := size, _fresh := 0 }

/-- Member `void put(const KeyType& key, const ValueType& value)`; `none` is undefined
behaviour (an eviction from an empty `_list`). -/
def put (c : LRUCache K V) (key : K) (value : V) : Option (LRUCache K V) :=
  match mapFind c._map key with
  | some _ => some c
  | none =>
    let evicted : Option (List (Nat × K) × List (K × (V × Nat))) :=
      if c._map.length ≥ c._limit_size then
        match c._list.getLast? with
        | none => none
        | some i => (listErase c._list i.1).map (fun l => (l, mapErase c._map i.2))
      else some (c._list, c._map)
    evicted.map (fun lm =>
      { _list := (c._fresh, key) :: lm.1
        _map := mapAssign lm.2 key (value, c._fresh)
        _limit_size := c._limit_size
        _fresh := c._fresh + 1 })

/-- Member `std::optional<ValueType> get(const KeyType& key)`: the result and the cache
afterwards; `none` is undefined behaviour (the stored iterator points to no node). -/
def get (c : LRUCache K V) (key : K) : Option (Option V × LRUCache K V) :=
  match mapFind c._map key with
  | none => some (none, c)
  | some (value, j) =>
    if some j ≠ listBegin c._list then
      (listErase c._list j).map (fun l =>
        (some value,
          { _list := (c._fresh, key) :: l
            _map := mapAssign c._map key (value, c._fresh)
            _limit_size := c._limit_size
            _fresh := c._fresh + 1 }))
    else some (some value, c)

/-- Member `void clear()`. -/
def clear (c : LRUCache K V) : LRUCache K V :=
  { c with _list := [], _map := [] }

/-- Member `bool empty() const`. -/
def empty (c : LRUCache K V) : Bool :=
  c._map.isEmpty

/-- Member `size_t size() const`. -/
def size (c : LRUCache K V) : Nat :=
  c._map.length

/-- Member `size_t limit_size() const`. -/
def limit_size (c : LRUCache K V) : Nat :=
  c._limit_size

/-- The recency order: the keys of `_list`, most recently used first. -/
def keys (c : LRUCache K V) : List K :=
  c._list.map Prod.snd

/-- The handles of the nodes of `_list`. -/
def handles (c : LRUCache K V) : List Nat :=
  c._list.map Prod.fst

/-- The value stored for `key` in `_map`, read without touching the recency order. -/
def lookup (c : LRUCache K V) (key : K) : Option V :=
  (mapFind c._map key).map Prod.fst

/-- One call on the public interface of the cache. -/
inductive Op (K V : Type) where
  | put (key : K) (value : V)
  | get (key : K)
  | clear
  deriving DecidableEq, Repr

/-- The cache after one call; `none` when the call has undefined behaviour. -/
def step (c : LRUCache K V) : Op K V → Option (LRUCache K V)
  | .put key value => c.put key value
  | .get key => (c.get key).map Prod.snd
  | .clear => some c.clear

/-- The cache after a sequence of calls, made from left to right. -/
def run (c : LRUCache K V) : List (Op K V) → Option (LRUCache K V)
  | [] => some c
  | op :: ops => (step c op).bind (fun c' => run c' ops)

/-- The representation invariant of the cache: handles and keys of `_list` are pairwise
distinct, `_map` has one entry per key, the iterator stored with a key is the handle of the node
holding that key, every node's key has such an entry, both containers have the same number of
elements, at most the positive capacity, and all handles in use were handed out before. -/
structure WF (c : LRUCache K V) : Prop where
  handles_nodup : c.handles.Nodup
  keys_nodup : c.keys.Nodup
  map_nodup : (c._map.map Prod.fst).Nodup
  map_to_list : ∀ k v j, mapFind c._map k = some (v, j) → (j, k) ∈ c._list
  list_to_map : ∀ j k, (j, k) ∈ c._list → ∃ v, mapFind c._map k = some (v, j)
  length_eq : c._map.length = c._list.length
  length_le : c._list.length ≤ c._limit_size
  limit_pos : 0 < c._limit_size
  handles_lt : ∀ j ∈ c.handles, j < c._fresh

/-! ### Touch history (specification side) -/

/-- The age of the most recent touch of `k` in a touch log listed newest first: the number of
touches made after it (the length of the log when `k` was never touched). The least recently
touched key is the one of greatest age. -/
def touchAge (log : List K) (k : K) : Nat :=
  log.indexOf k

/-- The key a call touches in state `c`: a `put` touches its key when it inserts it (the key is
absent), a `get` touches its key when it succeeds (the key is present). -/
def touched (c : LRUCache K V) : Op K V → Option K
  | .put key _ => if key ∈ c.keys then none else some key
  | .get key => if key ∈ c.keys then some key else none
  | .clear => none

/-- The touch log, newest first, after the calls `ops` made from state `c` with log `log`. -/
def touchLog (c : LRUCache K V) (log : List K) : List (Op K V) → List K
  | [] => log
  | op :: ops =>
    match step c op with
    | none => log
    | some c' => touchLog c' ((touched c op).toList ++ log) ops

/-- The recency order `l` agrees with the touch log: keys nearer the head were touched later. -/
def LogOrdered (log : List K) (l : List K) : Prop :=
  l.Pairwise (fun a b => touchAge log a < touchAge log b)

/-- What a caller sees of one call: the result of a `get` (`none` for `put` and `clear`), and
`size()` and `empty()` asked right after the call. -/
abbrev Obs (V : Type) : Type := Option (Option V) × Nat × Bool

/-- The observations made along a sequence of calls; `none` when a call is undefined. -/
def observe (c : LRUCache K V) : List (Op K V) → Option (List (Obs V))
  | [] => some []
  | .put key value :: ops =>
    (c.put key value).bind (fun c' =>
      (observe c' ops).map (fun os => (none, c'.size, c'.empty) :: os))
  | .get key :: ops =>
    (c.get key).bind (fun rc =>
      (observe rc.2 ops).map (fun os => (some rc.1, rc.2.size, rc.2.empty) :: os))
  | .clear :: ops =>
    (observe c.clear ops).map (fun os => (none, c.clear.size, c.clear.empty) :: os)

end LRUCache

/-! ## Reference model of the cache (specification side) -/

/-- The reference cache: one recency-ordered list of (key, value) pairs, most recently used
first, and the capacity. -/
structure RefCache (K V : Type) where
  pairs : List (K × V)
  capacity : Nat
  deriving DecidableEq, Repr

namespace RefCache

variable {K V : Type} [DecidableEq K]

/-- The empty reference cache of the given capacity. -/
def new (capacity : Nat) : RefCache K V :=
  { pairs := [], capacity := capacity }

/-- Put in the reference cache: a present key changes nothing; an absent key drops the last
pair when the cache is full and prepends the new pair. -/
def put (m : RefCache K V) (key : K) (value : V) : RefCache K V :=
  if key ∈ m.pairs.map Prod.fst then m
  else
    { m with
      pairs := (key, value) ::
        (if m.capacity ≤ m.pairs.length then m.pairs.dropLast else m.pairs) }

/-- Get in the reference cache: an absent key gives none; a present key gives its value and
moves its pair to the front. -/
def get (m : RefCache K V) (key : K) : Option V × RefCache K V :=
  match m.pairs.find? (fun p => p.1 == key) with
  | none => (none, m)
  | some p => (some p.2, { m with pairs := p :: m.pairs.eraseP (fun q => q.1 == key) })

/-- Clear in the reference cache. -/
def clear (m : RefCache K V) : RefCache K V :=
  { m with pairs := [] }

/-- Size of the reference cache. -/
def size (m : RefCache K V) : Nat :=
  m.pairs.length

/-- Emptiness of the reference cache. -/
def empty (m : RefCache K V) : Bool :=
  m.pairs.isEmpty

/-- The observations the reference cache gives along a sequence of calls. -/
def observe (m : RefCache K V) : List (LRUCache.Op K V) → List (LRUCache.Obs V)
  | [] => []
  | .put key value :: ops =>
    (none, (m.put key value).size, (m.put key value).empty) :: observe (m.put key value) ops
  | .get key :: ops =>
    (some (m.get key).1, (m.get key).2.size, (m.get key).2.empty) :: observe (m.get key).2 ops
  | .clear :: ops => (none, m.clear.size, m.clear.empty) :: observe m.clear ops

end RefCache

/-- The cache `c` represents the reference cache `m`: same capacity, the recency list holds the
keys of `m` in the same order, and the map stores the value of every pair of `m`. -/
def Represents {K V : Type} [DecidableEq K] (c : LRUCache K V) (m : RefCache K V) : Prop :=
  m.capacity = c._limit_size ∧ m.pairs.map Prod.fst = c.keys
    ∧ ∀ p ∈ m.pairs, c.lookup p.1 = some p.2

/-! ## `ThreadSafeContainer` -/

/-- What a call on the container does: it returns with the container in state `s`, it throws an
exception `e` leaving the container in state `s`, or its behaviour is undefined. -/
inductive Outcome (σ : Type) where
  | returned (s : σ)
  | threw (e : Error) (s : σ)
  | undefined
  deriving DecidableEq, Repr

/-- Models `std::vector<ValueType>`: the elements, and the number of elements the allocated storage
can hold. -/
structure StdVector (V : Type) where
  elems : List V
  cap : Nat
  deriving DecidableEq, Repr

/-- The field `_container` of `ThreadSafeContainer<ValueType>`. Every member function holds
`_mutex` for its whole body, so one call is one step on `_container`; the lock itself is not
part of the state. -/
structure ThreadSafeContainer (V : Type) where
  _container : StdVector V
  deriving DecidableEq, Repr

namespace ThreadSafeContainer

variable {V : Type}

/-- Constructor `ThreadSafeContainer()`. -/
def new : ThreadSafeContainer V :=
  { _container := { elems := [], cap := 0 } }

/-- Member `void clear() noexcept`: `_container.clear()` removes the elements and keeps the storage. -/
def clear (t : ThreadSafeContainer V) : ThreadSafeContainer V :=
  { _container := { elems := [], cap := t._container.cap } }

/-- Member `bool empty() const noexcept`. -/
def empty (t : ThreadSafeContainer V) : Bool :=
  t._container.elems.isEmpty

/-- Member `size_t size() const noexcept`. -/
def size (t : ThreadSafeContainer V) : Nat :=
  t._container.elems.length

/-- Member `size_t capacity() const noexcept`. -/
def capacity (t : ThreadSafeContainer V) : Nat :=
  t._container.cap

/-- Member `void reserve(size_t size)`: `_container.reserve(size)` throws `std::length_error`
when `size` exceeds the vector's `max_size()`, does nothing when the capacity is already at least
`size`, and otherwise reallocates to storage for `size` elements, throwing `std::bad_alloc` when
the allocator cannot provide it. An exception leaves the vector as it was. The library constant
`max_size()` and the largest number of elements the allocator can provide are the parameters
`max_size` and `max_alloc`. -/
def reserve (max_size max_alloc : Nat) (t : ThreadSafeContainer V) (size : Nat) :
    Outcome (ThreadSafeContainer V) :=
  if max_size < size then .threw .length_error t
  else if t._container.cap < size then
    if max_alloc < size then .threw .bad_alloc t
    else .returned { _container := { t._container with cap := size } }
  else .returned t

/-- Member `ValueType& operator[](size_t index)`, read: the element at `index`, `none` when the
index is not below `size()` (undefined behaviour). -/
def subscript (t : ThreadSafeContainer V) (index : Nat) : Option V :=
  t._container.elems[index]?

end ThreadSafeContainer

section mapLemmas
variable {K B : Type} [DecidableEq K]

theorem mapFind_nil (k : K) : mapFind ([] : List (K × B)) k = none := rfl

theorem mapFind_cons (e : K × B) (m : List (K × B)) (k : K) :
    mapFind (e :: m) k = if e.1 = k then some e.2 else mapFind m k := by
  unfold mapFind
  by_cases h : e.1 = k <;> simp [List.find?_cons, h]

theorem mapFind_eq_none_iff (m : List (K × B)) (k : K) :
    mapFind m k = none ↔ k ∉ m.map Prod.fst := by
  induction m with
  | nil => simp [mapFind_nil]
  | cons e m ih =>
    rw [mapFind_cons]
    by_cases h : e.1 = k
    · simp [h]
    · simp only [h, if_false, ih, List.map_cons, List.mem_cons, not_or]
      exact ⟨fun hm => ⟨fun hk => h hk.symm, hm⟩, fun hm => hm.2⟩

theorem mapFind_mem (m : List (K × B)) (k : K) (b : B) (h : mapFind m k = some b) :
    (k, b) ∈ m := by
  induction m with
  | nil => simp [mapFind_nil] at h
  | cons e m ih =>
    rw [mapFind_cons] at h
    by_cases hk : e.1 = k
    · simp only [hk, if_true, Option.some.injEq] at h
      have : e = (k, b) := Prod.ext hk h
      simp [this]
    · simp only [hk, if_false] at h
      exact List.mem_cons_of_mem _ (ih h)

theorem mapFind_of_mem (m : List (K × B)) (hnd : (m.map Prod.fst).Nodup) (k : K) (b : B)
    (h : (k, b) ∈ m) : mapFind m k = some b := by
  induction m with
  | nil => simp at h
  | cons e m ih =>
    rw [mapFind_cons]
    rw [List.map_cons, List.nodup_cons] at hnd
    rcases List.mem_cons.1 h with h | h
    · simp [← h]
    · have hne : e.1 ≠ k := by
        intro hk
        exact hnd.1 (hk ▸ List.mem_map_of_mem Prod.fst h)
      simp only [hne, if_false]
      exact ih hnd.2 h

theorem mapFind_mapErase (m : List (K × B)) (hnd : (m.map Prod.fst).Nodup) (k k' : K) :
    mapFind (mapErase m k) k' = if k' = k then none else mapFind m k' := by
  induction m with
  | nil => simp [mapErase, mapFind_nil]
  | cons e m ih =>
    rw [List.map_cons, List.nodup_cons] at hnd
    unfold mapErase at ih ⊢
    by_cases he : e.1 = k
    · rw [List.eraseP_cons_of_pos (by simpa using he), mapFind_cons]
      by_cases hk : k' = k
      · have : mapFind m k' = none := by
          rw [mapFind_eq_none_iff, hk, ← he]; exact hnd.1
        rw [if_pos hk]; exact this
      · have : e.1 ≠ k' := fun h => hk (h ▸ he)
        simp [hk, this]
    · rw [List.eraseP_cons_of_neg (by simpa using he), mapFind_cons, mapFind_cons, ih hnd.2]
      by_cases hk : k' = k
      · have : e.1 ≠ k' := fun h => he (h.trans hk)
        simp [hk, this, he]
      · simp [hk]

theorem mapErase_keys (m : List (K × B)) (k : K) :
    (mapErase m k).map Prod.fst = (m.map Prod.fst).erase k := by
  induction m with
  | nil => simp [mapErase]
  | cons e m ih =>
    unfold mapErase at ih ⊢
    by_cases he : e.1 = k
    · rw [List.eraseP_cons_of_pos (by simpa using he)]
      simp [he]
    · rw [List.eraseP_cons_of_neg (by simpa using he), List.map_cons, List.map_cons,
        List.erase_cons_tail (by simpa using he), ih]

theorem mapAssign_keys (m : List (K × B)) (k : K) (b : B) :
    (mapAssign m k b).map Prod.fst =
      if (mapFind m k).isSome then m.map Prod.fst else k :: m.map Prod.fst := by
  unfold mapAssign
  split
  · rw [List.map_map]
    congr 1
    funext e
    by_cases h : e.1 = k <;> simp [h]
  · simp

theorem mapFind_mapAssign (m : List (K × B)) (k k' : K) (b : B) :
    mapFind (mapAssign m k b) k' = if k' = k then some b else mapFind m k' := by
  unfold mapAssign
  split
  · rename_i hs
    induction m with
    | nil => simp [mapFind_nil] at hs
    | cons e m ih =>
      rw [List.map_cons, mapFind_cons, mapFind_cons]
      rw [mapFind_cons] at hs
      by_cases he : e.1 = k
      · by_cases hk : k' = k
        · simp [he, hk]
        · have : ¬ k = k' := fun h => hk h.symm
          simp only [he, if_true, this, if_false, hk]
          by_cases hm : (mapFind m k).isSome
          · simpa [hk] using ih hm
          · have hnone : mapFind m k = none := by simpa using hm
            have hall : ∀ x ∈ m, x.1 ≠ k := by
              intro x hx hxk
              exact (mapFind_eq_none_iff m k).1 hnone (hxk ▸ List.mem_map_of_mem Prod.fst hx)
            have : m.map (fun e => if e.1 = k then (e.1, b) else e) = m := by
              conv_rhs => rw [← List.map_id m]
              apply List.map_congr_left
              intro x hx
              simp [hall x hx]
            rw [this]
      · simp only [he, if_false] at hs ⊢
        by_cases hk : k' = k
        · have : e.1 ≠ k' := fun h => he (h.trans hk)
          simp only [this, if_false]
          exact ih hs
        · by_cases hek : e.1 = k'
          · simp [hek, hk]
          · simp only [hek, if_false]
            exact ih hs
  · rw [mapFind_cons]
    by_cases hk : k' = k
    · simp [hk]
    · have : ¬ k = k' := fun h => hk h.symm
      simp [hk, this]

theorem mapAssign_length (m : List (K × B)) (k : K) (b : B) :
    (mapAssign m k b).length = if (mapFind m k).isSome then m.length else m.length + 1 := by
  unfold mapAssign
  split <;> simp

theorem mapErase_length (m : List (K × B)) (k : K) (h : (mapFind m k).isSome) :
    (mapErase m k).length + 1 = m.length := by
  obtain ⟨b, hb⟩ := Option.isSome_iff_exists.1 h
  have hmem := mapFind_mem m k b hb
  unfold mapErase
  rw [List.length_eraseP_of_mem hmem (by simp)]
  have : 0 < m.length := List.length_pos_of_mem hmem
  omega

end mapLemmas

section listLemmas
variable {K : Type} [DecidableEq K]

theorem handle_unique (l : List (Nat × K)) (hnd : (l.map Prod.fst).Nodup) (j : Nat) (k k' : K)
    (h : (j, k) ∈ l) (h' : (j, k') ∈ l) : k = k' := by
  have := List.inj_on_of_nodup_map hnd h h' rfl
  exact (Prod.mk.inj this).2

theorem key_unique (l : List (Nat × K)) (hnd : (l.map Prod.snd).Nodup) (j j' : Nat) (k : K)
    (h : (j, k) ∈ l) (h' : (j', k) ∈ l) : j = j' := by
  have := List.inj_on_of_nodup_map hnd h h' rfl
  exact (Prod.mk.inj this).1

theorem listErase_of_mem (l : List (Nat × K)) (j : Nat) (k : K) (h : (j, k) ∈ l) :
    listErase l j = some (l.eraseP (fun nd => nd.1 == j)) := by
  unfold listErase
  rw [if_pos]
  simp only [List.any_eq_true, beq_iff_eq]
  exact ⟨(j, k), h, rfl⟩

theorem mem_eraseP_handle (l : List (Nat × K)) (hnd : (l.map Prod.fst).Nodup) (j : Nat)
    (nd : Nat × K) : nd ∈ l.eraseP (fun x => x.1 == j) ↔ nd ∈ l ∧ nd.1 ≠ j := by
  induction l with
  | nil => simp
  | cons e l ih =>
    rw [List.map_cons, List.nodup_cons] at hnd
    by_cases he : e.1 = j
    · rw [List.eraseP_cons_of_pos (by simpa using he)]
      constructor
      · intro hm
        refine ⟨List.mem_cons_of_mem _ hm, fun hj => hnd.1 ?_⟩
        rw [he, ← hj]
        exact List.mem_map_of_mem Prod.fst hm
      · rintro ⟨hm, hj⟩
        rcases List.mem_cons.1 hm with hm | hm
        · exact absurd (hm ▸ he) hj
        · exact hm
    · rw [List.eraseP_cons_of_neg (by simpa using he), List.mem_cons, ih hnd.2, List.mem_cons]
      constructor
      · rintro (hm | hm)
        · exact ⟨Or.inl hm, hm ▸ he⟩
        · exact ⟨Or.inr hm.1, hm.2⟩
      · rintro ⟨hm | hm, hj⟩
        · exact Or.inl hm
        · exact Or.inr ⟨hm, hj⟩

theorem eraseP_handle_keys (l : List (Nat × K)) (hh : (l.map Prod.fst).Nodup)
    (hk : (l.map Prod.snd).Nodup) (j : Nat) (k : K) (h : (j, k) ∈ l) :
    (l.eraseP (fun x => x.1 == j)).map Prod.snd = (l.map Prod.snd).erase k := by
  induction l with
  | nil => simp at h
  | cons e l ih =>
    have hh' := hh
    rw [List.map_cons, List.nodup_cons] at hh' hk
    by_cases he : e.1 = j
    · rw [List.eraseP_cons_of_pos (by simpa using he)]
      have hek : e.2 = k := by
        have hmem : (j, e.2) ∈ e :: l := by
          rw [← he]; exact List.mem_cons_self _ _
        exact handle_unique (e :: l) hh j e.2 k hmem h
      simp [hek]
    · have hin : (j, k) ∈ l := by
        rcases List.mem_cons.1 h with h | h
        · exact absurd (by rw [← h]) he
        · exact h
      have hne : e.2 ≠ k := by
        intro hek
        exact hk.1 (hek ▸ List.mem_map_of_mem Prod.snd hin)
      rw [List.eraseP_cons_of_neg (by simpa using he), List.map_cons, List.map_cons,
        List.erase_cons_tail (by simpa using hne), ih hh'.2 hk.2 hin]

theorem eraseP_last (l : List (Nat × K)) (hh : (l.map Prod.fst).Nodup) (i : Nat × K)
    (h : l.getLast? = some i) : l.eraseP (fun x => x.1 == i.1) = l.dropLast := by
  induction l with
  | nil => simp at h
  | cons e l ih =>
    cases l with
    | nil =>
      simp only [List.getLast?_singleton, Option.some.injEq] at h
      simp [h]
    | cons e' t =>
      rw [List.getLast?_cons_cons] at h
      rw [List.map_cons, List.nodup_cons] at hh
      have hmem : i ∈ e' :: t := List.mem_of_getLast?_eq_some h
      have hne : e.1 ≠ i.1 := fun heq => hh.1 (heq ▸ List.mem_map_of_mem Prod.fst hmem)
      rw [List.eraseP_cons_of_neg (by simpa using hne), ih hh.2 h, List.dropLast_cons₂]

end listLemmas


namespace LRUCache
variable {K V : Type} [DecidableEq K]

theorem mem_keys_iff (c : LRUCache K V) (hc : WF c) (k : K) :
    k ∈ c.keys ↔ (mapFind c._map k).isSome := by
  constructor
  · intro h
    obtain ⟨nd, hnd, rfl⟩ := List.mem_map.1 h
    obtain ⟨v, hv⟩ := hc.list_to_map nd.1 nd.2 hnd
    simp [hv]
  · intro h
    obtain ⟨p, hp⟩ := Option.isSome_iff_exists.1 h
    exact List.mem_map.2 ⟨(p.2, k), hc.map_to_list k p.1 p.2 hp, rfl⟩

theorem wf_insert (c : LRUCache K V) (hc : WF c) (key : K) (value : V)
    (hroom : c._list.length < c._limit_size) (habs : mapFind c._map key = none) :
    WF ({ _list := (c._fresh, key) :: c._list
          _map := mapAssign c._map key (value, c._fresh)
          _limit_size := c._limit_size
          _fresh := c._fresh + 1 } : LRUCache K V) := by
  have hnk : key ∉ c.keys := by
    rw [mem_keys_iff c hc, habs]; simp
  have hnf : c._fresh ∉ c.handles := fun h => Nat.lt_irrefl _ (hc.handles_lt _ h)
  have hfind : ∀ k', mapFind (mapAssign c._map key (value, c._fresh)) k'
      = if k' = key then some (value, c._fresh) else mapFind c._map k' :=
    fun k' => mapFind_mapAssign c._map key k' (value, c._fresh)
  refine ⟨?_, ?_, ?_, ?_, ?_, ?_, ?_, hc.limit_pos, ?_⟩
  · exact List.nodup_cons.2 ⟨hnf, hc.handles_nodup⟩
  · exact List.nodup_cons.2 ⟨hnk, hc.keys_nodup⟩
  · show (List.map Prod.fst (mapAssign c._map key (value, c._fresh))).Nodup
    rw [mapAssign_keys, habs]
    simp only [Option.isSome_none, Bool.false_eq_true, if_false]
    refine List.nodup_cons.2 ⟨?_, hc.map_nodup⟩
    exact (mapFind_eq_none_iff _ _).1 habs
  · intro k v j h
    show (j, k) ∈ (c._fresh, key) :: c._list
    rw [hfind] at h
    by_cases hk : k = key
    · simp only [hk, if_true, Option.some.injEq, Prod.mk.injEq] at h
      simp [hk, ← h.2]
    · simp only [hk, if_false] at h
      exact List.mem_cons_of_mem _ (hc.map_to_list k v j h)
  · intro j k h
    show ∃ v, mapFind (mapAssign c._map key (value, c._fresh)) k = some (v, j)
    rw [hfind]
    rcases List.mem_cons.1 h with h | h
    · simp only [Prod.mk.injEq] at h
      exact ⟨value, by simp [h.1, h.2]⟩
    · have hk : k ≠ key := fun hk => hnk (hk ▸ List.mem_map_of_mem Prod.snd h)
      simp only [hk, if_false]
      exact hc.list_to_map j k h
  · show (mapAssign c._map key (value, c._fresh)).length = ((c._fresh, key) :: c._list).length
    rw [mapAssign_length, habs]
    simp [hc.length_eq]
  · show ((c._fresh, key) :: c._list).length ≤ c._limit_size
    simpa using hroom
  · intro j hj
    show j < c._fresh + 1
    rcases List.mem_cons.1 hj with hj | hj
    · omega
    · exact Nat.lt_succ_of_lt (hc.handles_lt j hj)

theorem wf_evict (c : LRUCache K V) (hc : WF c) (i : Nat × K) (hi : c._list.getLast? = some i) :
    WF ({ c with _list := c._list.dropLast, _map := mapErase c._map i.2 } : LRUCache K V)
    ∧ c._list.dropLast.length < c._limit_size := by
  have himem : i ∈ c._list := List.mem_of_getLast?_eq_some hi
  have hpos : 0 < c._list.length := List.length_pos_of_mem himem
  have hdl : c._list.dropLast = c._list.eraseP (fun x => x.1 == i.1) :=
    (eraseP_last c._list hc.handles_nodup i hi).symm
  have hmemd : ∀ nd, nd ∈ c._list.dropLast ↔ nd ∈ c._list ∧ nd.1 ≠ i.1 := by
    intro nd; rw [hdl]; exact mem_eraseP_handle c._list hc.handles_nodup i.1 nd
  have hfind : ∀ k', mapFind (mapErase c._map i.2) k'
      = if k' = i.2 then none else mapFind c._map k' :=
    fun k' => mapFind_mapErase c._map hc.map_nodup i.2 k'
  have hsub : c._list.dropLast.Sublist c._list := List.dropLast_sublist _
  refine ⟨⟨?_, ?_, ?_, ?_, ?_, ?_, ?_, hc.limit_pos, ?_⟩, ?_⟩
  · exact hc.handles_nodup.sublist (hsub.map _)
  · exact hc.keys_nodup.sublist (hsub.map _)
  · show (List.map Prod.fst (mapErase c._map i.2)).Nodup
    rw [mapErase_keys]
    exact hc.map_nodup.erase _
  · intro k v j h
    show (j, k) ∈ c._list.dropLast
    rw [hfind] at h
    by_cases hk : k = i.2
    · simp [hk] at h
    · simp only [hk, if_false] at h
      have hm := hc.map_to_list k v j h
      refine (hmemd (j, k)).2 ⟨hm, fun hj => hk ?_⟩
      have : (i.1, k) ∈ c._list := by
        have hj' : j = i.1 := hj
        rw [← hj']; exact hm
      exact handle_unique c._list hc.handles_nodup i.1 k i.2 this himem
  · intro j k h
    show ∃ v, mapFind (mapErase c._map i.2) k = some (v, j)
    rw [hfind]
    have hm := (hmemd (j, k)).1 h
    have hk : k ≠ i.2 := by
      intro hk
      apply hm.2
      have : (j, i.2) ∈ c._list := hk ▸ hm.1
      exact key_unique c._list hc.keys_nodup j i.1 i.2 this himem
    simp only [hk, if_false]
    exact hc.list_to_map j k hm.1
  · show (mapErase c._map i.2).length = c._list.dropLast.length
    obtain ⟨v, hv⟩ := hc.list_to_map i.1 i.2 himem
    have := mapErase_length c._map i.2 (by simp [hv])
    rw [List.length_dropLast]
    have := hc.length_eq
    omega
  · show c._list.dropLast.length ≤ c._limit_size
    rw [List.length_dropLast]
    have := hc.length_le
    omega
  · intro j hj
    exact hc.handles_lt j ((hsub.map _).subset hj)
  · rw [List.length_dropLast]
    have := hc.length_le
    omega


theorem put_present (c : LRUCache K V) (key : K) (value : V) (p : V × Nat)
    (h : mapFind c._map key = some p) : put c key value = some c := by
  unfold put
  rw [h]

theorem get_absent (c : LRUCache K V) (key : K) (h : mapFind c._map key = none) :
    get c key = some (none, c) := by
  unfold get
  rw [h]

theorem put_absent_room (c : LRUCache K V) (key : K) (value : V)
    (habs : mapFind c._map key = none) (hroom : c._map.length < c._limit_size) :
    put c key value = some
      { _list := (c._fresh, key) :: c._list
        _map := mapAssign c._map key (value, c._fresh)
        _limit_size := c._limit_size
        _fresh := c._fresh + 1 } := by
  unfold put
  rw [habs]
  have : ¬ c._map.length ≥ c._limit_size := by omega
  simp [this]

theorem put_absent_full (c : LRUCache K V) (hc : WF c) (key : K) (value : V)
    (habs : mapFind c._map key = none) (hfull : c._limit_size ≤ c._map.length) :
    ∃ i, c._list.getLast? = some i ∧ put c key value = some
      { _list := (c._fresh, key) :: c._list.dropLast
        _map := mapAssign (mapErase c._map i.2) key (value, c._fresh)
        _limit_size := c._limit_size
        _fresh := c._fresh + 1 } := by
  have hne : c._list ≠ [] := by
    intro h
    have h1 := hc.length_eq
    have h2 := hc.limit_pos
    rw [h, List.length_nil] at h1
    omega
  obtain ⟨i, hi⟩ : ∃ i, c._list.getLast? = some i :=
    ⟨c._list.getLast hne, List.getLast?_eq_getLast _ hne⟩
  refine ⟨i, hi, ?_⟩
  have himem : i ∈ c._list := List.mem_of_getLast?_eq_some hi
  have herase : listErase c._list i.1 = some c._list.dropLast := by
    rw [listErase_of_mem c._list i.1 i.2 himem, eraseP_last c._list hc.handles_nodup i hi]
  unfold put
  rw [habs]
  simp [hfull, hi, herase]

theorem evict_keys (c : LRUCache K V) :
    (c._list.dropLast).map Prod.snd = c.keys.dropLast := by
  unfold keys
  rw [List.dropLast_eq_take, List.dropLast_eq_take, List.map_take, List.length_map]

theorem getLast?_keys (c : LRUCache K V) :
    c.keys.getLast? = c._list.getLast?.map Prod.snd := by
  unfold keys
  rw [List.getLast?_map]

/-- Put of an absent key on a well-formed cache: what it returns, abstractly. -/
theorem put_absent_spec (c : LRUCache K V) (hc : WF c) (key : K) (value : V)
    (habs : mapFind c._map key = none) :
    ∃ c', put c key value = some c' ∧ WF c' ∧ c'._limit_size = c._limit_size
      ∧ c'.keys = key :: (if c._limit_size ≤ c.size then c.keys.dropLast else c.keys)
      ∧ (∀ k', lookup c' k' = if k' = key then some value
            else if c._limit_size ≤ c.size ∧ c.keys.getLast? = some k' then none
            else lookup c k')
      ∧ c'.size = (if c._limit_size ≤ c.size then c.size else c.size + 1) := by
  by_cases hfull : c._limit_size ≤ c._map.length
  · obtain ⟨i, hi, hput⟩ := put_absent_full c hc key value habs hfull
    obtain ⟨hwf, hlt⟩ := wf_evict c hc i hi
    have himem : i ∈ c._list := List.mem_of_getLast?_eq_some hi
    have hik : i.2 ≠ key := by
      intro h
      obtain ⟨v, hv⟩ := hc.list_to_map i.1 i.2 himem
      rw [h, habs] at hv
      exact Option.noConfusion hv
    have habs' : mapFind (mapErase c._map i.2) key = none := by
      rw [mapFind_mapErase c._map hc.map_nodup, habs]; simp
    have hwf' := wf_insert _ hwf key value hlt habs'
    refine ⟨_, hput, hwf', rfl, ?_, ?_, ?_⟩
    · show key :: (c._list.dropLast).map Prod.snd = _
      rw [evict_keys]
      simp [size, hfull]
    · intro k'
      show Option.map Prod.fst (mapFind (mapAssign (mapErase c._map i.2) key (value, c._fresh)) k')
        = _
      rw [mapFind_mapAssign, mapFind_mapErase c._map hc.map_nodup, getLast?_keys, hi]
      by_cases hk : k' = key
      · simp [hk]
      · by_cases hk' : k' = i.2
        · simp [hk, hk', size, hfull]
        · have : ¬ i.2 = k' := fun h => hk' h.symm
          simp [hk, hk', this, lookup]
    · show (mapAssign (mapErase c._map i.2) key (value, c._fresh)).length = _
      rw [mapAssign_length, habs']
      obtain ⟨v, hv⟩ := hc.list_to_map i.1 i.2 himem
      have := mapErase_length c._map i.2 (by simp [hv])
      simp only [size, hfull, if_true, Option.isSome_none, Bool.false_eq_true, if_false]
      exact this
  · have hroom : c._map.length < c._limit_size := by omega
    have hroom' : c._list.length < c._limit_size := by rw [← hc.length_eq]; exact hroom
    refine ⟨_, put_absent_room c key value habs hroom, wf_insert c hc key value hroom' habs,
      rfl, ?_, ?_, ?_⟩
    · show key :: c.keys = _
      simp [size, hfull]
    · intro k'
      show Option.map Prod.fst (mapFind (mapAssign c._map key (value, c._fresh)) k') = _
      rw [mapFind_mapAssign]
      by_cases hk : k' = key
      · simp [hk]
      · simp [hk, size, hfull, lookup]
    · show (mapAssign c._map key (value, c._fresh)).length = _
      rw [mapAssign_length, habs]
      simp [size, hfull]


theorem wf_promote (c : LRUCache K V) (hc : WF c) (key : K) (value : V) (j : Nat)
    (hfind : mapFind c._map key = some (value, j)) :
    WF ({ _list := (c._fresh, key) :: c._list.eraseP (fun nd => nd.1 == j)
          _map := mapAssign c._map key (value, c._fresh)
          _limit_size := c._limit_size
          _fresh := c._fresh + 1 } : LRUCache K V) := by
  have hjk : (j, key) ∈ c._list := hc.map_to_list key value j hfind
  have hmeme : ∀ nd, nd ∈ c._list.eraseP (fun x => x.1 == j) ↔ nd ∈ c._list ∧ nd.1 ≠ j :=
    mem_eraseP_handle c._list hc.handles_nodup j
  have hsub : (c._list.eraseP (fun x => x.1 == j)).Sublist c._list := List.eraseP_sublist _
  have hnf : c._fresh ∉ c.handles := fun h => Nat.lt_irrefl _ (hc.handles_lt _ h)
  have hfa : ∀ k', mapFind (mapAssign c._map key (value, c._fresh)) k'
      = if k' = key then some (value, c._fresh) else mapFind c._map k' :=
    fun k' => mapFind_mapAssign c._map key k' (value, c._fresh)
  have hnk : key ∉ (c._list.eraseP (fun x => x.1 == j)).map Prod.snd := by
    intro h
    obtain ⟨nd, hnd, hk⟩ := List.mem_map.1 h
    have h1 := (hmeme nd).1 hnd
    have h2 : (nd.1, key) ∈ c._list := by rw [← hk]; exact h1.1
    exact h1.2 (key_unique c._list hc.keys_nodup nd.1 j key h2 hjk)
  refine ⟨?_, ?_, ?_, ?_, ?_, ?_, ?_, hc.limit_pos, ?_⟩
  · refine List.nodup_cons.2 ⟨fun h => hnf ((hsub.map _).subset h), ?_⟩
    exact hc.handles_nodup.sublist (hsub.map _)
  · exact List.nodup_cons.2 ⟨hnk, hc.keys_nodup.sublist (hsub.map _)⟩
  · show (List.map Prod.fst (mapAssign c._map key (value, c._fresh))).Nodup
    rw [mapAssign_keys, hfind]
    simpa using hc.map_nodup
  · intro k v i h
    show (i, k) ∈ (c._fresh, key) :: c._list.eraseP (fun nd => nd.1 == j)
    rw [hfa] at h
    by_cases hk : k = key
    · simp only [hk, if_true, Option.some.injEq, Prod.mk.injEq] at h
      simp [hk, ← h.2]
    · simp only [hk, if_false] at h
      have hm := hc.map_to_list k v i h
      refine List.mem_cons_of_mem _ ((hmeme (i, k)).2 ⟨hm, fun hij => hk ?_⟩)
      have hij' : i = j := hij
      rw [hij'] at hm
      exact handle_unique c._list hc.handles_nodup j k key hm hjk
  · intro i k h
    show ∃ v, mapFind (mapAssign c._map key (value, c._fresh)) k = some (v, i)
    rw [hfa]
    rcases List.mem_cons.1 h with h | h
    · simp only [Prod.mk.injEq] at h
      exact ⟨value, by simp [h.1, h.2]⟩
    · have hk : k ≠ key := fun hk => hnk (hk ▸ List.mem_map_of_mem Prod.snd h)
      simp only [hk, if_false]
      exact hc.list_to_map i k ((hmeme (i, k)).1 h).1
  · show (mapAssign c._map key (value, c._fresh)).length
      = ((c._fresh, key) :: c._list.eraseP (fun nd => nd.1 == j)).length
    rw [mapAssign_length, hfind, List.length_cons, List.length_eraseP_of_mem hjk (by simp)]
    have := hc.length_eq
    have : 0 < c._list.length := List.length_pos_of_mem hjk
    simp only [Option.isSome_some, if_true]
    omega
  · show ((c._fresh, key) :: c._list.eraseP (fun nd => nd.1 == j)).length ≤ c._limit_size
    rw [List.length_cons, List.length_eraseP_of_mem hjk (by simp)]
    have := hc.length_le
    have : 0 < c._list.length := List.length_pos_of_mem hjk
    omega
  · intro i hi
    show i < c._fresh + 1
    rcases List.mem_cons.1 hi with hi | hi
    · omega
    · exact Nat.lt_succ_of_lt (hc.handles_lt i ((hsub.map _).subset hi))

/-- Get of a present key on a well-formed cache: what it returns, abstractly. -/
theorem get_present_spec (c : LRUCache K V) (hc : WF c) (key : K) (value : V) (j : Nat)
    (hfind : mapFind c._map key = some (value, j)) :
    ∃ c', get c key = some (some value, c') ∧ WF c' ∧ c'._limit_size = c._limit_size
      ∧ c'.keys = key :: c.keys.erase key
      ∧ (∀ k', lookup c' k' = lookup c k')
      ∧ c'.size = c.size
      ∧ (c.keys.head? = some key → c' = c) := by
  have hjk : (j, key) ∈ c._list := hc.map_to_list key value j hfind
  by_cases hb : some j = listBegin c._list
  · have hget : get c key = some (some value, c) := by
      unfold get
      rw [hfind]
      simp [hb]
    refine ⟨c, hget, hc, rfl, ?_, fun _ => rfl, rfl, fun _ => rfl⟩
    unfold keys
    cases hl : c._list with
    | nil => rw [hl] at hjk; simp at hjk
    | cons e t =>
      rw [hl] at hb hjk
      have hej : e.1 = j := by simpa [listBegin] using hb.symm
      have hmem : (j, e.2) ∈ e :: t := by rw [← hej]; exact List.mem_cons_self _ _
      have hh : ((e :: t).map Prod.fst).Nodup := by
        have := hc.handles_nodup
        unfold handles at this
        rwa [hl] at this
      have hek : e.2 = key := handle_unique (e :: t) hh j e.2 key hmem hjk
      simp [hek]
  · have hget : get c key = some (some value,
        { _list := (c._fresh, key) :: c._list.eraseP (fun nd => nd.1 == j)
          _map := mapAssign c._map key (value, c._fresh)
          _limit_size := c._limit_size
          _fresh := c._fresh + 1 }) := by
      unfold get
      rw [hfind]
      simp [hb, listErase_of_mem c._list j key hjk]
    refine ⟨_, hget, wf_promote c hc key value j hfind, rfl, ?_, ?_, ?_, ?_⟩
    · show key :: (c._list.eraseP (fun nd => nd.1 == j)).map Prod.snd = _
      rw [eraseP_handle_keys c._list hc.handles_nodup hc.keys_nodup j key hjk]
      rfl
    · intro k'
      show Option.map Prod.fst (mapFind (mapAssign c._map key (value, c._fresh)) k') = _
      rw [mapFind_mapAssign]
      by_cases hk : k' = key
      · simp [hk, lookup, hfind]
      · simp [hk, lookup]
    · show (mapAssign c._map key (value, c._fresh)).length = c._map.length
      rw [mapAssign_length, hfind]
      simp
    · intro hhead
      exfalso
      apply hb
      unfold keys at hhead
      cases hl : c._list with
      | nil => rw [hl] at hjk; simp at hjk
      | cons e t =>
        rw [hl] at hhead hjk
        have hek : e.2 = key := by simpa using hhead
        have hmem : (e.1, key) ∈ e :: t := by rw [← hek]; exact List.mem_cons_self _ _
        have hkn : ((e :: t).map Prod.snd).Nodup := by
          have := hc.keys_nodup
          unfold keys at this
          rwa [hl] at this
        have := key_unique (e :: t) hkn e.1 j key hmem hjk
        simp [listBegin, this]

theorem wf_clear (c : LRUCache K V) (hc : WF c) : WF c.clear := by
  refine ⟨?_, ?_, ?_, ?_, ?_, rfl, ?_, hc.limit_pos, ?_⟩
  · exact List.nodup_nil
  · exact List.nodup_nil
  · exact List.nodup_nil
  · intro k v j h
    exact Option.noConfusion h
  · intro j k h
    exact absurd h (List.not_mem_nil _)
  · exact Nat.zero_le _
  · intro j hj
    exact absurd hj (List.not_mem_nil _)

theorem new_eq_ok (lim n : Nat) (c : LRUCache K V) (h : new lim n = .ok c) :
    0 < n ∧ n ≤ lim ∧ c = { _list := [], _map := [], _limit_size := n, _fresh := 0 } := by
  unfold new at h
  by_cases hn : n = 0
  · simp [hn] at h
  · by_cases hl : lim < n
    · simp [hn, hl] at h
    · simp only [hn, hl, if_false, Except.ok.injEq] at h
      exact ⟨Nat.pos_of_ne_zero hn, Nat.le_of_not_lt hl, h.symm⟩

theorem wf_new (lim n : Nat) (c : LRUCache K V) (h : new lim n = .ok c) : WF c := by
  obtain ⟨hn, _, hc⟩ := new_eq_ok lim n c h
  subst hc
  refine ⟨List.nodup_nil, List.nodup_nil, List.nodup_nil, ?_, ?_, rfl, Nat.zero_le _, hn, ?_⟩
  · intro k v j h
    exact Option.noConfusion h
  · intro j k h
    exact absurd h (List.not_mem_nil _)
  · intro j hj
    exact absurd hj (List.not_mem_nil _)


theorem step_wf (c : LRUCache K V) (hc : WF c) (op : Op K V) :
    ∃ c', step c op = some c' ∧ WF c' ∧ c'._limit_size = c._limit_size := by
  cases op with
  | put key value =>
    cases hf : mapFind c._map key with
    | none =>
      obtain ⟨c', hput, hwf, hlim, _⟩ := put_absent_spec c hc key value hf
      exact ⟨c', hput, hwf, hlim⟩
    | some p => exact ⟨c, put_present c key value p hf, hc, rfl⟩
  | get key =>
    cases hf : mapFind c._map key with
    | none => exact ⟨c, by simp [step, get_absent c key hf], hc, rfl⟩
    | some p =>
      obtain ⟨c', hget, hwf, hlim, _⟩ := get_present_spec c hc key p.1 p.2 hf
      exact ⟨c', by simp [step, hget], hwf, hlim⟩
  | clear => exact ⟨c.clear, rfl, wf_clear c hc, rfl⟩

theorem run_wf (ops : List (Op K V)) (c : LRUCache K V) (hc : WF c) :
    ∃ c', run c ops = some c' ∧ WF c' ∧ c'._limit_size = c._limit_size := by
  induction ops generalizing c with
  | nil => exact ⟨c, rfl, hc, rfl⟩
  | cons op ops ih =>
    obtain ⟨c1, h1, hwf1, hl1⟩ := step_wf c hc op
    obtain ⟨c2, h2, hwf2, hl2⟩ := ih c1 hwf1
    exact ⟨c2, by simp [run, h1, h2], hwf2, hl2.trans hl1⟩

theorem reachable_wf (lim n : Nat) (c0 : LRUCache K V) (h0 : new lim n = .ok c0)
    (ops : List (Op K V)) (c : LRUCache K V) (hrun : run c0 ops = some c) :
    WF c ∧ c._limit_size = n := by
  have hwf0 := wf_new lim n c0 h0
  obtain ⟨c', h', hwf, hlim⟩ := run_wf ops c0 hwf0
  rw [hrun] at h'
  cases h'
  refine ⟨hwf, hlim.trans ?_⟩
  rw [(new_eq_ok lim n c0 h0).2.2]

theorem new_ok (lim n : Nat) (hn : 0 < n) (hfit : n ≤ lim) :
    (new lim n : Except Error (LRUCache K V))
      = .ok { _list := [], _map := [], _limit_size := n, _fresh := 0 } := by
  unfold new
  rw [if_neg (Nat.pos_iff_ne_zero.1 hn), if_neg (Nat.not_lt.2 hfit)]

end LRUCache

namespace LRUCache
variable {K V : Type} [DecidableEq K]

theorem touchAge_cons_self (log : List K) (k : K) : touchAge (k :: log) k = 0 := by
  simp [touchAge]

theorem touchAge_cons_ne (log : List K) (k x : K) (h : x ≠ k) :
    touchAge (k :: log) x = touchAge log x + 1 := by
  unfold touchAge
  rw [List.indexOf_cons_ne _ (fun hk => h hk.symm)]

theorem logOrdered_touch (log l m : List K) (k : K) (h : LogOrdered log l) (hsub : m.Sublist l)
    (hk : k ∉ m) : LogOrdered (k :: log) (k :: m) := by
  unfold LogOrdered at h ⊢
  refine List.pairwise_cons.2 ⟨?_, ?_⟩
  · intro b hb
    have hbk : b ≠ k := fun e => hk (e ▸ hb)
    rw [touchAge_cons_self, touchAge_cons_ne log k b hbk]
    exact Nat.succ_pos _
  · refine (h.sublist hsub).imp_of_mem ?_
    intro a b ha hb hab
    have hak : a ≠ k := fun e => hk (e ▸ ha)
    have hbk : b ≠ k := fun e => hk (e ▸ hb)
    rw [touchAge_cons_ne log k a hak, touchAge_cons_ne log k b hbk]
    exact Nat.succ_lt_succ hab

theorem logOrdered_last (log l : List K) (h : LogOrdered log l) (e : K)
    (he : l.getLast? = some e) (x : K) (hx : x ∈ l) (hxe : x ≠ e) :
    touchAge log x < touchAge log e := by
  have hne : l ≠ [] := List.ne_nil_of_mem hx
  have hl : l = l.dropLast ++ [e] := by
    have h1 := List.dropLast_append_getLast hne
    have h2 : l.getLast hne = e := by
      rw [List.getLast?_eq_getLast _ hne] at he
      exact Option.some.inj he
    rw [h2] at h1
    exact h1.symm
  unfold LogOrdered at h
  rw [hl] at h hx
  have hp := (List.pairwise_append.1 h).2.2
  rcases List.mem_append.1 hx with hx | hx
  · exact hp x hx e (List.mem_singleton_self e)
  · exact absurd (List.mem_singleton.1 hx) hxe

theorem keys_length (c : LRUCache K V) (hc : WF c) : c.keys.length = c.size := by
  unfold keys size
  rw [List.length_map, hc.length_eq]

theorem lookup_isSome_iff (c : LRUCache K V) (hc : WF c) (k : K) :
    (lookup c k).isSome ↔ k ∈ c.keys := by
  rw [mem_keys_iff c hc k]
  unfold lookup
  cases mapFind c._map k <;> simp

theorem lookup_eq_none_iff (c : LRUCache K V) (hc : WF c) (k : K) :
    lookup c k = none ↔ k ∉ c.keys := by
  rw [← lookup_isSome_iff c hc k]
  cases lookup c k <;> simp

/-- On a well-formed cache `get` succeeds and returns the stored value. -/
theorem get_spec (c : LRUCache K V) (hc : WF c) (k : K) :
    ∃ c', get c k = some (lookup c k, c') ∧ WF c' ∧ c'._limit_size = c._limit_size
      ∧ c'.keys = (if k ∈ c.keys then k :: c.keys.erase k else c.keys)
      ∧ (∀ x, lookup c' x = lookup c x) ∧ c'.size = c.size := by
  cases hf : mapFind c._map k with
  | none =>
    have hk : k ∉ c.keys := by rw [mem_keys_iff c hc k, hf]; simp
    refine ⟨c, ?_, hc, rfl, by rw [if_neg hk], fun _ => rfl, rfl⟩
    rw [get_absent c k hf]
    simp [lookup, hf]
  | some p =>
    have hk : k ∈ c.keys := by rw [mem_keys_iff c hc k, hf]; simp
    obtain ⟨c', hget, hwf, hlim, hkeys, hlook, hsize, _⟩ := get_present_spec c hc k p.1 p.2 hf
    refine ⟨c', ?_, hwf, hlim, by rw [if_pos hk]; exact hkeys, hlook, hsize⟩
    rw [hget]
    simp [lookup, hf]

/-- One call keeps the recency order in agreement with the touch log. -/
theorem step_logOrdered (c : LRUCache K V) (hc : WF c) (log : List K)
    (h : LogOrdered log c.keys) (op : Op K V) (c' : LRUCache K V) (hs : step c op = some c') :
    LogOrdered ((touched c op).toList ++ log) c'.keys := by
  cases op with
  | put key value =>
    cases hf : mapFind c._map key with
    | none =>
      have hk : key ∉ c.keys := by rw [mem_keys_iff c hc key, hf]; simp
      obtain ⟨c1, hput, _, _, hkeys, _⟩ := put_absent_spec c hc key value hf
      have hcc : c1 = c' := by
        have : step c (Op.put key value) = some c1 := hput
        rw [hs] at this
        exact (Option.some.inj this).symm
      subst hcc
      have ht : touched c (Op.put key value) = some key := by simp [touched, hk]
      rw [ht, hkeys]
      by_cases hfull : c._limit_size ≤ c.size
      · rw [if_pos hfull]
        exact logOrdered_touch log c.keys _ key h (List.dropLast_sublist _)
          (fun hm => hk ((List.dropLast_sublist _).subset hm))
      · rw [if_neg hfull]
        exact logOrdered_touch log c.keys _ key h (List.Sublist.refl _) hk
    | some p =>
      have hk : key ∈ c.keys := by rw [mem_keys_iff c hc key, hf]; simp
      have hcc : c = c' := by
        have : step c (Op.put key value) = some c := put_present c key value p hf
        rw [hs] at this
        exact (Option.some.inj this).symm
      subst hcc
      have ht : touched c (Op.put key value) = none := by simp [touched, hk]
      rw [ht]
      exact h
  | get key =>
    obtain ⟨c1, hget, _, _, hkeys, _⟩ := get_spec c hc key
    have hcc : c1 = c' := by
      have : step c (Op.get key) = some c1 := by simp [step, hget]
      rw [hs] at this
      exact (Option.some.inj this).symm
    subst hcc
    rw [hkeys]
    by_cases hk : key ∈ c.keys
    · have ht : touched c (Op.get key : Op K V) = some key := by simp [touched, hk]
      rw [ht, if_pos hk]
      exact logOrdered_touch log c.keys _ key h (List.erase_sublist _ _)
        (fun hm => (List.Nodup.mem_erase_iff hc.keys_nodup).1 hm |>.1 rfl)
    · have ht : touched c (Op.get key : Op K V) = none := by simp [touched, hk]
      rw [ht, if_neg hk]
      exact h
  | clear =>
    have hcc : c.clear = c' := Option.some.inj hs
    subst hcc
    exact List.Pairwise.nil

theorem run_logOrdered (ops : List (Op K V)) (c : LRUCache K V) (hc : WF c) (log : List K)
    (h : LogOrdered log c.keys) (c' : LRUCache K V) (hr : run c ops = some c') :
    LogOrdered (touchLog c log ops) c'.keys := by
  induction ops generalizing c log with
  | nil =>
    have : c = c' := Option.some.inj hr
    subst this
    exact h
  | cons op ops ih =>
    obtain ⟨c1, h1, hwf1, _⟩ := step_wf c hc op
    have hr' : run c1 ops = some c' := by
      have : run c (op :: ops) = run c1 ops := by simp [run, h1]
      rw [← this]; exact hr
    have hlog : touchLog c log (op :: ops) = touchLog c1 ((touched c op).toList ++ log) ops := by
      simp [touchLog, h1]
    rw [hlog]
    exact ih c1 hwf1 _ (step_logOrdered c hc log h op c1 h1) hr'

theorem new_keys (lim n : Nat) (c0 : LRUCache K V) (h0 : new lim n = .ok c0) :
    c0.keys = [] := by
  rw [(new_eq_ok lim n c0 h0).2.2]
  rfl

theorem mapFind_none_of_lookup (c : LRUCache K V) (k : K) (h : lookup c k = none) :
    mapFind c._map k = none := by
  unfold lookup at h
  simpa using h

end LRUCache

namespace LRUCache
variable {K V : Type} [DecidableEq K]

theorem run_append (a b : List (Op K V)) (c c1 : LRUCache K V) (log : List K)
    (h : run c a = some c1) :
    run c (a ++ b) = run c1 b ∧ touchLog c log (a ++ b) = touchLog c1 (touchLog c log a) b := by
  induction a generalizing c log with
  | nil =>
    have : c = c1 := Option.some.inj h
    subst this
    exact ⟨rfl, rfl⟩
  | cons op a ih =>
    cases hs : step c op with
    | none => simp [run, hs] at h
    | some c' =>
      have h' : run c' a = some c1 := by
        have : run c (op :: a) = run c' a := by simp [run, hs]
        rw [← this]; exact h
      obtain ⟨ih1, ih2⟩ := ih c' ((touched c op).toList ++ log) h'
      constructor
      · show run c (op :: (a ++ b)) = run c1 b
        simp only [run, hs, Option.some_bind]
        exact ih1
      · show touchLog c log (op :: (a ++ b)) = touchLog c1 (touchLog c log (op :: a)) b
        simp only [touchLog, hs]
        exact ih2

/-- Filling phase: putting pairwise distinct absent keys while there is room. -/
theorem run_puts (kvs : List (K × V)) (c : LRUCache K V) (log : List K) (hc : WF c)
    (hnd : (kvs.map Prod.fst).Nodup) (habs : ∀ x ∈ kvs.map Prod.fst, x ∉ c.keys)
    (hroom : c.size + kvs.length ≤ c._limit_size) :
    ∃ c1, run c (kvs.map (fun p => Op.put p.1 p.2)) = some c1 ∧ WF c1
      ∧ c1._limit_size = c._limit_size
      ∧ c1.keys = (kvs.map Prod.fst).reverse ++ c.keys
      ∧ c1.size = c.size + kvs.length
      ∧ (∀ p ∈ kvs, lookup c1 p.1 = some p.2)
      ∧ (∀ x, x ∉ kvs.map Prod.fst → lookup c1 x = lookup c x)
      ∧ touchLog c log (kvs.map (fun p => Op.put p.1 p.2)) = (kvs.map Prod.fst).reverse ++ log := by
  induction kvs generalizing c log with
  | nil => exact ⟨c, rfl, hc, rfl, rfl, rfl, by simp, fun _ _ => rfl, rfl⟩
  | cons p kvs ih =>
    rw [List.map_cons, List.nodup_cons] at hnd
    have hp : p.1 ∉ c.keys := habs p.1 (by simp)
    have hf : mapFind c._map p.1 = none :=
      mapFind_none_of_lookup c p.1 ((lookup_eq_none_iff c hc p.1).2 hp)
    obtain ⟨c', hput, hwf', hlim', hkeys', hlook', hsize'⟩ := put_absent_spec c hc p.1 p.2 hf
    have hnf : ¬ c._limit_size ≤ c.size := by
      rw [List.length_cons] at hroom
      omega
    rw [if_neg hnf] at hkeys' hsize'
    have hl' : ∀ x, lookup c' x = if x = p.1 then some p.2 else lookup c x := by
      intro x
      rw [hlook']
      by_cases hx : x = p.1
      · simp [hx]
      · simp [hx, hnf]
    have habs' : ∀ x ∈ kvs.map Prod.fst, x ∉ c'.keys := by
      intro x hx
      rw [hkeys', List.mem_cons, not_or]
      exact ⟨fun h => hnd.1 (h ▸ hx), habs x (List.mem_cons_of_mem _ hx)⟩
    have hroom' : c'.size + kvs.length ≤ c'._limit_size := by
      rw [hsize', hlim']
      rw [List.length_cons] at hroom
      omega
    obtain ⟨c1, hrun, hwf1, hlim1, hkeys1, hsize1, hlook1, hframe1, hlog1⟩ :=
      ih c' ((touched c (Op.put p.1 p.2)).toList ++ log) hwf' hnd.2 habs' hroom'
    have ht : touched c (Op.put p.1 p.2) = some p.1 := by simp [touched, hp]
    have hstep : step c (Op.put p.1 p.2) = some c' := hput
    refine ⟨c1, ?_, hwf1, hlim1.trans hlim', ?_, ?_, ?_, ?_, ?_⟩
    · show run c (Op.put p.1 p.2 :: kvs.map (fun p => Op.put p.1 p.2)) = some c1
      simp only [run, hstep, Option.some_bind]
      exact hrun
    · rw [hkeys1, hkeys']
      simp
    · rw [hsize1, hsize', List.length_cons]
      omega
    · intro q hq
      rcases List.mem_cons.1 hq with hq | hq
      · rw [hq, hframe1 p.1 hnd.1, hl']
        simp
      · exact hlook1 q hq
    · intro x hx
      rw [List.map_cons, List.mem_cons, not_or] at hx
      rw [hframe1 x hx.2, hl']
      simp [hx.1]
    · show touchLog c log (Op.put p.1 p.2 :: kvs.map (fun p => Op.put p.1 p.2)) = _
      simp only [touchLog, hstep]
      rw [hlog1, ht]
      simp

/-- Reading phase: a sequence of `get` calls keeps the stored keys and values. -/
theorem run_gets (gs : List K) (c : LRUCache K V) (log : List K) (hc : WF c) :
    ∃ c1, run c (gs.map (fun g => (Op.get g : Op K V))) = some c1 ∧ WF c1
      ∧ c1._limit_size = c._limit_size ∧ c1.size = c.size
      ∧ (∀ x, lookup c1 x = lookup c x)
      ∧ (∀ x, x ∈ c1.keys ↔ x ∈ c.keys)
      ∧ touchLog c log (gs.map (fun g => (Op.get g : Op K V)))
          = (gs.filter (fun g => g ∈ c.keys)).reverse ++ log := by
  induction gs generalizing c log with
  | nil => exact ⟨c, rfl, hc, rfl, rfl, fun _ => rfl, fun _ => Iff.rfl, rfl⟩
  | cons g gs ih =>
    obtain ⟨c', hget, hwf', hlim', _, hlook', hsize'⟩ := get_spec c hc g
    have hmem' : ∀ x, x ∈ c'.keys ↔ x ∈ c.keys := by
      intro x
      rw [← lookup_isSome_iff c' hwf' x, ← lookup_isSome_iff c hc x, hlook']
    obtain ⟨c1, hrun, hwf1, hlim1, hsize1, hlook1, hmem1, hlog1⟩ :=
      ih c' ((touched c (Op.get g : Op K V)).toList ++ log) hwf'
    have hstep : step c (Op.get g : Op K V) = some c' := by simp [step, hget]
    have hfilter : gs.filter (fun g => decide (g ∈ c'.keys)) = gs.filter (fun g => decide (g ∈ c.keys)) := by
      apply List.filter_congr
      intro x _
      simp [hmem' x]
    refine ⟨c1, ?_, hwf1, hlim1.trans hlim', hsize1.trans hsize',
      fun x => (hlook1 x).trans (hlook' x), fun x => (hmem1 x).trans (hmem' x), ?_⟩
    · show run c (Op.get g :: gs.map (fun g => (Op.get g : Op K V))) = some c1
      simp only [run, hstep, Option.some_bind]
      exact hrun
    · show touchLog c log (Op.get g :: gs.map (fun g => (Op.get g : Op K V))) = _
      simp only [touchLog, hstep]
      rw [hlog1, hfilter]
      by_cases hg : g ∈ c.keys
      · simp [touched, hg, List.filter_cons]
      · simp [touched, hg, List.filter_cons]

end LRUCache

namespace LRUCache
variable {K V : Type} [DecidableEq K]

/-- Putting pairwise distinct absent keys, with eviction once the cache is full. -/
theorem run_puts_size (kvs : List (K × V)) (c : LRUCache K V) (hc : WF c)
    (hnd : (kvs.map Prod.fst).Nodup) (habs : ∀ x ∈ kvs.map Prod.fst, x ∉ c.keys) :
    ∃ c1, run c (kvs.map (fun p => Op.put p.1 p.2)) = some c1 ∧ WF c1
      ∧ c1._limit_size = c._limit_size
      ∧ c1.size = min (c.size + kvs.length) c._limit_size := by
  induction kvs generalizing c with
  | nil =>
    refine ⟨c, rfl, hc, rfl, ?_⟩
    have h1 := hc.length_le
    have h2 := hc.length_eq
    simp only [size, List.length_nil, Nat.add_zero]
    omega
  | cons p kvs ih =>
    rw [List.map_cons, List.nodup_cons] at hnd
    have hp : p.1 ∉ c.keys := habs p.1 (by simp)
    have hf : mapFind c._map p.1 = none :=
      mapFind_none_of_lookup c p.1 ((lookup_eq_none_iff c hc p.1).2 hp)
    obtain ⟨c', hput, hwf', hlim', hkeys', _, hsize'⟩ := put_absent_spec c hc p.1 p.2 hf
    have habs' : ∀ x ∈ kvs.map Prod.fst, x ∉ c'.keys := by
      intro x hx hmem
      rw [hkeys'] at hmem
      rcases List.mem_cons.1 hmem with h | h
      · exact hnd.1 (h ▸ hx)
      · have hx' := habs x (List.mem_cons_of_mem _ hx)
        split at h
        · exact hx' ((List.dropLast_sublist _).subset h)
        · exact hx' h
    obtain ⟨c1, hrun, hwf1, hlim1, hsize1⟩ := ih c' hwf' hnd.2 habs'
    have hstep : step c (Op.put p.1 p.2) = some c' := hput
    refine ⟨c1, ?_, hwf1, hlim1.trans hlim', ?_⟩
    · show run c (Op.put p.1 p.2 :: kvs.map (fun p => Op.put p.1 p.2)) = some c1
      simp only [run, hstep, Option.some_bind]
      exact hrun
    · rw [hsize1, hsize', hlim', List.length_cons]
      have h1 := hc.length_le
      have h2 := hc.length_eq
      have h3 : c.size = c._map.length := rfl
      split <;> omega

end LRUCache

section refinement
open LRUCache
variable {K V : Type} [DecidableEq K]

theorem not_mem_dropLast_of_getLast (l : List K) (hnd : l.Nodup) (x : K)
    (hx : l.getLast? = some x) : x ∉ l.dropLast := by
  have hl : l.dropLast ++ [x] = l := List.dropLast_append_getLast? x hx
  rw [← hl] at hnd
  intro hmem
  exact (List.nodup_append.1 hnd).2.2 hmem (List.mem_singleton_self x)

theorem represents_size (c : LRUCache K V) (m : RefCache K V) (hc : WF c)
    (h : Represents c m) : c.size = m.size ∧ c.empty = m.empty := by
  have hlen : m.pairs.length = c._map.length := by
    have := congrArg List.length h.2.1
    rw [List.length_map, keys_length c hc] at this
    exact this
  constructor
  · exact hlen.symm
  · unfold LRUCache.empty RefCache.empty
    cases hm : m.pairs with
    | nil =>
      rw [hm] at hlen
      have : c._map = [] := List.eq_nil_of_length_eq_zero hlen.symm
      rw [this]
      rfl
    | cons a t =>
      rw [hm] at hlen
      cases hcm : c._map with
      | nil => rw [hcm] at hlen; simp at hlen
      | cons b u => rfl

theorem represents_put (c : LRUCache K V) (m : RefCache K V) (hc : WF c)
    (h : Represents c m) (key : K) (value : V) :
    ∃ c', put c key value = some c' ∧ WF c' ∧ Represents c' (m.put key value) := by
  obtain ⟨hcap, hkeys, hvals⟩ := h
  by_cases hk : key ∈ c.keys
  · obtain ⟨p, hp⟩ := Option.isSome_iff_exists.1 ((mem_keys_iff c hc key).1 hk)
    refine ⟨c, put_present c key value p hp, hc, ?_⟩
    have : m.put key value = m := by
      unfold RefCache.put
      rw [if_pos (hkeys ▸ hk)]
    rw [this]
    exact ⟨hcap, hkeys, hvals⟩
  · have hf : mapFind c._map key = none :=
      mapFind_none_of_lookup c key ((lookup_eq_none_iff c hc key).2 hk)
    obtain ⟨c', hput, hwf', hlim', hkeys', hlook', _⟩ := put_absent_spec c hc key value hf
    have hlen : m.pairs.length = c.size := by
      have := congrArg List.length hkeys
      rw [List.length_map, keys_length c hc] at this
      exact this
    have hput' : m.put key value = { m with
        pairs := (key, value) ::
          (if c._limit_size ≤ c.size then m.pairs.dropLast else m.pairs) } := by
      unfold RefCache.put
      rw [if_neg (hkeys ▸ hk), hcap, hlen]
    rw [hput']
    refine ⟨c', hput, hwf', ?_, ?_, ?_⟩
    · exact hcap.trans hlim'.symm
    · show (key :: List.map Prod.fst
        (if c._limit_size ≤ c.size then m.pairs.dropLast else m.pairs)) = c'.keys
      rw [hkeys']
      split
      · rw [List.map_dropLast, hkeys]
      · rw [hkeys]
    · intro q hq
      rw [hlook']
      rcases List.mem_cons.1 hq with hq | hq
      · rw [hq]
        simp
      · have hqm : q ∈ m.pairs := by
          split at hq
          · exact (List.dropLast_sublist _).subset hq
          · exact hq
        have hqk : q.1 ≠ key := by
          intro e
          apply hk
          rw [← hkeys, ← e]
          exact List.mem_map_of_mem Prod.fst hqm
        rw [if_neg hqk]
        by_cases hfull : c._limit_size ≤ c.size
        · rw [if_pos hfull] at hq
          have hq1 : q.1 ∈ c.keys.dropLast := by
            rw [← hkeys, ← List.map_dropLast]
            exact List.mem_map_of_mem Prod.fst hq
          have hnl : ¬ c.keys.getLast? = some q.1 := fun hl =>
            not_mem_dropLast_of_getLast c.keys hc.keys_nodup q.1 hl hq1
          rw [if_neg (fun hh => hnl hh.2)]
          exact hvals q hqm
        · rw [if_neg (fun hh => hfull hh.1)]
          exact hvals q hqm

theorem represents_get (c : LRUCache K V) (m : RefCache K V) (hc : WF c)
    (h : Represents c m) (key : K) :
    ∃ c', get c key = some ((m.get key).1, c') ∧ WF c' ∧ Represents c' (m.get key).2 := by
  obtain ⟨hcap, hkeys, hvals⟩ := h
  obtain ⟨c', hget, hwf', hlim', hkeys', hlook', _⟩ := get_spec c hc key
  cases hfind : m.pairs.find? (fun p => p.1 == key) with
  | none =>
    have hk : key ∉ c.keys := by
      rw [← hkeys]
      intro hmem
      obtain ⟨q, hq, hqk⟩ := List.mem_map.1 hmem
      have := List.find?_eq_none.1 hfind q hq
      exact this (by simpa using hqk)
    have hmget : m.get key = (none, m) := by
      unfold RefCache.get
      rw [hfind]
    rw [hmget]
    rw [(lookup_eq_none_iff c hc key).2 hk] at hget
    rw [if_neg hk] at hkeys'
    refine ⟨c', hget, hwf', hcap.trans hlim'.symm, hkeys.trans hkeys'.symm, ?_⟩
    intro q hq
    rw [hlook']
    exact hvals q hq
  | some p =>
    have hpm : p ∈ m.pairs := List.mem_of_find?_eq_some hfind
    have hpk : p.1 = key := by simpa using List.find?_some hfind
    have hk : key ∈ c.keys := by
      rw [← hkeys, ← hpk]
      exact List.mem_map_of_mem Prod.fst hpm
    have hmget : m.get key
        = (some p.2, { m with pairs := p :: m.pairs.eraseP (fun q => q.1 == key) }) := by
      unfold RefCache.get
      rw [hfind]
    rw [hmget]
    have hl : lookup c key = some p.2 := by
      rw [← hpk]
      exact hvals p hpm
    rw [hl] at hget
    rw [if_pos hk] at hkeys'
    refine ⟨c', hget, hwf', hcap.trans hlim'.symm, ?_, ?_⟩
    · show p.1 :: List.map Prod.fst (m.pairs.eraseP (fun q => q.1 == key)) = c'.keys
      have := mapErase_keys m.pairs key
      unfold mapErase at this
      rw [this, hkeys, hkeys', hpk]
    · intro q hq
      rw [hlook']
      rcases List.mem_cons.1 hq with hq | hq
      · rw [hq]
        exact hvals p hpm
      · exact hvals q (List.mem_of_mem_eraseP hq)

theorem represents_clear (c : LRUCache K V) (m : RefCache K V) (h : Represents c m) :
    Represents c.clear m.clear :=
  ⟨h.1, rfl, fun _ hp => absurd hp (List.not_mem_nil _)⟩

theorem represents_observe (ops : List (Op K V)) (c : LRUCache K V) (m : RefCache K V)
    (hc : WF c) (h : Represents c m) : LRUCache.observe c ops = some (m.observe ops) := by
  induction ops generalizing c m with
  | nil => rfl
  | cons op ops ih =>
    cases op with
    | put key value =>
      obtain ⟨c', hput, hwf', hrep'⟩ := represents_put c m hc h key value
      obtain ⟨hs, he⟩ := represents_size c' (m.put key value) hwf' hrep'
      simp only [LRUCache.observe, RefCache.observe, hput, Option.some_bind,
        ih c' (m.put key value) hwf' hrep', Option.map_some', hs, he]
    | get key =>
      obtain ⟨c', hget, hwf', hrep'⟩ := represents_get c m hc h key
      obtain ⟨hs, he⟩ := represents_size c' (m.get key).2 hwf' hrep'
      simp only [LRUCache.observe, RefCache.observe, hget, Option.some_bind,
        ih c' (m.get key).2 hwf' hrep', Option.map_some', hs, he]
    | clear =>
      have hwf' := wf_clear c hc
      have hrep' := represents_clear c m h
      obtain ⟨hs, he⟩ := represents_size c.clear m.clear hwf' hrep'
      simp only [LRUCache.observe, RefCache.observe,
        ih c.clear m.clear hwf' hrep', Option.map_some', hs, he]

end refinement

/-! ## Claims -/

section claims
open LRUCache
variable {K V : Type} [DecidableEq K]

/-- C1. Capacity invariant: for a cache constructed with capacity `n > 0` (a capacity whose
bucket array the allocator can provide, `n <= lim`) and any sequence of `put`, `get` and `clear`
calls, construction and every call succeed, and after each number `i` of calls made
`size() <= limit_size()` and `limit_size() = n`. -/
theorem capacity_invariant (lim n : Nat) (hn : 0 < n) (hfit : n ≤ lim)
    (ops : List (Op K V)) :
    ∃ c0 : LRUCache K V, new lim n = .ok c0 ∧
      ∀ i : Nat, ∃ c, run c0 (ops.take i) = some c ∧ c.size ≤ c.limit_size ∧ c.limit_size = n := by
  refine ⟨_, new_ok lim n hn hfit, fun i => ?_⟩
  obtain ⟨c, hrun, _, _⟩ :=
    run_wf (ops.take i) _ (wf_new lim n _ (new_ok (K := K) (V := V) lim n hn hfit))
  obtain ⟨hwf, hlim⟩ := reachable_wf lim n _ (new_ok lim n hn hfit) _ c hrun
  refine ⟨c, hrun, ?_, hlim⟩
  show c._map.length ≤ c._limit_size
  rw [hwf.length_eq]
  exact hwf.length_le

theorem capacity_invariant_witness :
    0 < 2 ∧ 2 ≤ 1024 ∧ ∃ c0 : LRUCache Nat Nat, new 1024 2 = .ok c0 ∧
      ∀ i : Nat, ∃ c, run c0 ([Op.put 1 10, Op.put 2 20, Op.get 1, Op.put 3 30, Op.clear].take i)
        = some c ∧ c.size ≤ c.limit_size ∧ c.limit_size = 2 :=
  ⟨by decide, by decide, capacity_invariant 1024 2 (by decide) (by decide) _⟩

/-- C2. Eviction correctness: for `N >= 1` pairwise distinct keys put into a fresh cache of
capacity `N` (a capacity whose bucket array the allocator can provide, `N <= lim`, so that
construction succeeds), followed by any sequence of `get` calls, the touch log (newest first)
consists of
the successful gets above the initial puts, and a `put` of one more key `k'` distinct from all of
them succeeds and evicts exactly the least recently touched key `e` (every other of the `N` keys
has a smaller touch age): afterwards `get(e)` returns none, `get` of each of the other `N - 1`
keys returns the value it was put with, and `get(k')` returns `v'`. -/
theorem eviction_least_recently_touched (kvs : List (K × V)) (hne : kvs ≠ [])
    (hnd : (kvs.map Prod.fst).Nodup) (gs : List K) (k' : K) (hk' : k' ∉ kvs.map Prod.fst)
    (v' : V) (lim : Nat) (hfit : kvs.length ≤ lim) :
    ∃ c0 c1 c2 e, new lim kvs.length = .ok c0
      ∧ run c0 (kvs.map (fun p => Op.put p.1 p.2) ++ gs.map (fun g => Op.get g)) = some c1
      ∧ touchLog c0 [] (kvs.map (fun p => Op.put p.1 p.2) ++ gs.map (fun g => Op.get g))
          = (gs.filter (fun g => g ∈ kvs.map Prod.fst)).reverse ++ (kvs.map Prod.fst).reverse
      ∧ put c1 k' v' = some c2
      ∧ e ∈ kvs.map Prod.fst
      ∧ (∀ x ∈ kvs.map Prod.fst, x ≠ e →
          touchAge ((gs.filter (fun g => g ∈ kvs.map Prod.fst)).reverse
              ++ (kvs.map Prod.fst).reverse) x
            < touchAge ((gs.filter (fun g => g ∈ kvs.map Prod.fst)).reverse
              ++ (kvs.map Prod.fst).reverse) e)
      ∧ (∃ d, get c2 e = some (none, d))
      ∧ (∀ p ∈ kvs, p.1 ≠ e → ∃ d, get c2 p.1 = some (some p.2, d))
      ∧ (∃ d, get c2 k' = some (some v', d)) := by
  have hpos : 0 < kvs.length := List.length_pos.2 hne
  have hnew : (new lim kvs.length : Except Error (LRUCache K V))
      = .ok ⟨[], [], kvs.length, 0⟩ := new_ok lim kvs.length hpos hfit
  have hwf0 := wf_new lim kvs.length _ hnew
  obtain ⟨ca, hruna, hwfa, hlima, hkeysa, hsizea, hlooka, _, hloga⟩ :=
    run_puts kvs (⟨[], [], kvs.length, 0⟩ : LRUCache K V) [] hwf0 hnd
      (fun x _ h => absurd h (List.not_mem_nil x)) (by simp [size])
  have hkeysa' : ∀ x, x ∈ ca.keys ↔ x ∈ kvs.map Prod.fst := by
    intro x
    rw [hkeysa]
    simp [keys]
  obtain ⟨c1, hrun1, hwf1, hlim1, hsize1, hlook1, hmem1, hlog1⟩ :=
    run_gets gs ca ((kvs.map Prod.fst).reverse ++ []) hwfa
  obtain ⟨hrun, hlog⟩ := run_append (kvs.map (fun p => Op.put p.1 p.2))
    (gs.map (fun g => (Op.get g : Op K V))) _ ca [] hruna
  rw [hrun1] at hrun
  rw [hloga, hlog1] at hlog
  have hfilter : gs.filter (fun g => decide (g ∈ ca.keys))
      = gs.filter (fun g => decide (g ∈ kvs.map Prod.fst)) := by
    apply List.filter_congr
    intro x _
    simp only [decide_eq_decide]
    exact hkeysa' x
  rw [hfilter, List.append_nil] at hlog
  have hlo := run_logOrdered _ _ hwf0 [] List.Pairwise.nil c1 hrun
  rw [hlog] at hlo
  have hmem : ∀ x, x ∈ c1.keys ↔ x ∈ kvs.map Prod.fst := fun x => (hmem1 x).trans (hkeysa' x)
  have habs1 : mapFind c1._map k' = none :=
    mapFind_none_of_lookup c1 k' ((lookup_eq_none_iff c1 hwf1 k').2 (fun h => hk' ((hmem k').1 h)))
  obtain ⟨c2, hput, hwf2, _, _, hlook2, _⟩ := put_absent_spec c1 hwf1 k' v' habs1
  have hs1 : c1.size = kvs.length := by
    rw [hsize1, hsizea]
    simp [size]
  have hfull1 : c1._limit_size ≤ c1.size := by
    rw [hlim1, hlima, hs1]
  have hne1 : c1.keys ≠ [] := by
    intro h
    have := keys_length c1 hwf1
    rw [h, hs1] at this
    simp at this
    omega
  obtain ⟨e, he⟩ : ∃ e, c1.keys.getLast? = some e :=
    ⟨c1.keys.getLast hne1, List.getLast?_eq_getLast _ hne1⟩
  have hemem : e ∈ c1.keys := List.mem_of_getLast?_eq_some he
  have hek' : e ≠ k' := fun h => hk' ((hmem k').1 (h ▸ hemem))
  have hl2 : ∀ x, lookup c2 x
      = if x = k' then some v' else if x = e then none else lookup ca x := by
    intro x
    rw [hlook2, he, hlook1]
    by_cases hx : x = k'
    · simp [hx]
    · by_cases hxe : x = e
      · simp [hx, hxe, hfull1]
      · have : ¬ e = x := fun h => hxe h.symm
        simp [hx, hxe, this]
  refine ⟨_, c1, c2, e, hnew, hrun, hlog, hput, (hmem e).1 hemem, ?_, ?_, ?_, ?_⟩
  · intro x hx hxe
    exact logOrdered_last _ c1.keys hlo e he x ((hmem x).2 hx) hxe
  · obtain ⟨d, hd, _⟩ := get_spec c2 hwf2 e
    refine ⟨d, ?_⟩
    rw [hd, hl2]
    simp [hek']
  · intro p hp hpe
    have hpk' : p.1 ≠ k' := fun h => hk' (h ▸ List.mem_map_of_mem Prod.fst hp)
    obtain ⟨d, hd, _⟩ := get_spec c2 hwf2 p.1
    refine ⟨d, ?_⟩
    rw [hd, hl2, hlooka p hp]
    simp [hpk', hpe]
  · obtain ⟨d, hd, _⟩ := get_spec c2 hwf2 k'
    refine ⟨d, ?_⟩
    rw [hd, hl2]
    simp

theorem eviction_least_recently_touched_witness :
    [(1, 10), (2, 20), (3, 30)] ≠ ([] : List (Nat × Nat))
      ∧ (([(1, 10), (2, 20), (3, 30)] : List (Nat × Nat)).map Prod.fst).Nodup
      ∧ 4 ∉ ([(1, 10), (2, 20), (3, 30)] : List (Nat × Nat)).map Prod.fst
      ∧ (run (⟨[], [], 3, 0⟩ : LRUCache Nat Nat)
            [Op.put 1 10, Op.put 2 20, Op.put 3 30, Op.get 2, Op.get 9, Op.get 1, Op.put 4 40]).bind
          (fun c => (get c 3).map Prod.fst) = some none
      ∧ ([(1, 10), (2, 20), (3, 30)] : List (Nat × Nat)).length ≤ 1024
      ∧ ∃ c0 c1 c2 e, new 1024 ([(1, 10), (2, 20), (3, 30)] : List (Nat × Nat)).length = .ok c0
        ∧ run c0 (([(1, 10), (2, 20), (3, 30)] : List (Nat × Nat)).map (fun p => Op.put p.1 p.2)
            ++ [2, 9, 1].map (fun g => Op.get g)) = some c1
        ∧ touchLog c0 []
            (([(1, 10), (2, 20), (3, 30)] : List (Nat × Nat)).map (fun p => Op.put p.1 p.2)
              ++ [2, 9, 1].map (fun g => Op.get g))
          = ([2, 9, 1].filter (fun g => g ∈ [(1, 10), (2, 20), (3, 30)].map Prod.fst)).reverse
              ++ ([(1, 10), (2, 20), (3, 30)].map Prod.fst).reverse
        ∧ put c1 4 40 = some c2
        ∧ e ∈ [(1, 10), (2, 20), (3, 30)].map Prod.fst
        ∧ (∀ x ∈ [(1, 10), (2, 20), (3, 30)].map Prod.fst, x ≠ e →
            touchAge (([2, 9, 1].filter
                  (fun g => g ∈ [(1, 10), (2, 20), (3, 30)].map Prod.fst)).reverse
                ++ ([(1, 10), (2, 20), (3, 30)].map Prod.fst).reverse) x
              < touchAge (([2, 9, 1].filter
                  (fun g => g ∈ [(1, 10), (2, 20), (3, 30)].map Prod.fst)).reverse
                ++ ([(1, 10), (2, 20), (3, 30)].map Prod.fst).reverse) e)
        ∧ (∃ d, get c2 e = some (none, d))
        ∧ (∀ p ∈ [(1, 10), (2, 20), (3, 30)], p.1 ≠ e → ∃ d, get c2 p.1 = some (some p.2, d))
        ∧ (∃ d, get c2 4 = some (some 40, d)) :=
  ⟨by decide, by decide, by decide, by decide, by decide,
    eviction_least_recently_touched [(1, 10), (2, 20), (3, 30)] (by decide) (by decide)
      [2, 9, 1] 4 (by decide) 40 1024 (by decide)⟩

/-- C3. Put on an existing key is a no-op. In every cache state in which `k` is present, with
stored value `v1`, `put(k, v2)` returns the very same state (recency list, map, capacity); when
the state is well formed a following `get(k)` returns `v1`; and from a well-formed state without
`k` the sequence `put(k, v1); put(k, v2); get(k)` returns `v1`, the second `put` leaving the state
reached by the first unchanged. -/
theorem put_existing_key_noop (c : LRUCache K V) (k : K) (v1 v2 : V) :
    (∀ j, mapFind c._map k = some (v1, j) → put c k v2 = some c)
      ∧ (WF c → lookup c k = some v1 →
          ∃ c', (put c k v2).bind (fun c1 => get c1 k) = some (some v1, c'))
      ∧ (WF c → lookup c k = none →
          ∃ c1 c2, put c k v1 = some c1 ∧ put c1 k v2 = some c1 ∧ c1.keys.head? = some k
            ∧ get c1 k = some (some v1, c2)) := by
  refine ⟨fun j hj => put_present c k v2 (v1, j) hj, ?_, ?_⟩
  · intro hwf hl
    unfold lookup at hl
    obtain ⟨p, hp, hpv⟩ := Option.map_eq_some'.1 hl
    obtain ⟨c', hget, _⟩ := get_present_spec c hwf k p.1 p.2 hp
    rw [hpv] at hget
    exact ⟨c', by rw [put_present c k v2 p hp]; exact hget⟩
  · intro hwf hl
    have hf : mapFind c._map k = none := by
      unfold lookup at hl
      simpa using hl
    obtain ⟨c1, hput, hwf1, _, hkeys, hlook, _⟩ := put_absent_spec c hwf k v1 hf
    have hl1 : lookup c1 k = some v1 := by rw [hlook]; simp
    unfold lookup at hl1
    obtain ⟨p, hp, hpv⟩ := Option.map_eq_some'.1 hl1
    obtain ⟨c2, hget, _⟩ := get_present_spec c1 hwf1 k p.1 p.2 hp
    rw [hpv] at hget
    exact ⟨c1, c2, hput, put_present c1 k v2 p hp, by rw [hkeys]; rfl, hget⟩

theorem put_existing_key_noop_witness :
    ∃ c d : LRUCache Nat Nat,
      c = ⟨[(1, 2), (0, 1)], [(2, 20, 1), (1, 10, 0)], 3, 2⟩ ∧ d = ⟨[(0, 1)], [(1, 10, 0)], 3, 1⟩
      ∧ mapFind c._map 1 = some (10, 0) ∧ put c 1 99 = some c
      ∧ lookup c 1 = some 10
      ∧ (∃ c', (put c 1 99).bind (fun c1 => get c1 1) = some (some 10, c'))
      ∧ lookup d 2 = none
      ∧ (∃ c1 c2, put d 2 20 = some c1 ∧ put c1 2 99 = some c1 ∧ c1.keys.head? = some 2
            ∧ get c1 2 = some (some 20, c2)) :=
  ⟨_, _, rfl, rfl, by decide,
    (put_existing_key_noop _ 1 10 99).1 0 (by decide),
    by decide,
    (put_existing_key_noop _ 1 10 99).2.1
      (reachable_wf 1024 3 ⟨[], [], 3, 0⟩ (by rfl) [Op.put 1 10, Op.put 2 20] _ (by decide)).1
      (by decide),
    by decide,
    (put_existing_key_noop _ 2 20 99).2.2
      (reachable_wf 1024 3 ⟨[], [], 3, 0⟩ (by rfl) [Op.put 1 10] _ (by decide)).1 (by decide)⟩

/-- C4. Recency promotion: in every reachable full cache holding at least two keys, for every
present key `k` and absent key `k'`, `get(k)` followed by `put(k', v')` succeeds and evicts a key
`e` other than `k`: the key least recently touched among the keys other than `k` (every other
such key has a smaller touch age in the touch log of the run). Afterwards `get(e)` returns none,
every other key that was present (`k` included) is returned with the value it had before, and
`get(k')` returns `v'`. -/
theorem recency_promotion (lim n : Nat) (c0 : LRUCache K V) (h0 : new lim n = .ok c0)
    (ops : List (Op K V)) (c : LRUCache K V) (hrun : run c0 ops = some c)
    (hfull : c.size = c.limit_size) (h2 : 2 ≤ c.size) (k : K) (hk : k ∈ c.keys)
    (k' : K) (hk' : k' ∉ c.keys) (v' : V) :
    ∃ r c1 c2 e, get c k = some (r, c1) ∧ put c1 k' v' = some c2 ∧ e ∈ c.keys ∧ e ≠ k
      ∧ (∀ x ∈ c.keys, x ≠ k → x ≠ e →
          touchAge (touchLog c0 [] ops) x < touchAge (touchLog c0 [] ops) e)
      ∧ (∃ d, get c2 e = some (none, d))
      ∧ (∀ x ∈ c.keys, x ≠ e →
          ∃ v d d', get c x = some (some v, d) ∧ get c2 x = some (some v, d'))
      ∧ (∃ d, get c2 k' = some (some v', d)) := by
  obtain ⟨hwf, _⟩ := reachable_wf lim n c0 h0 ops c hrun
  have hlo : LogOrdered (touchLog c0 [] ops) c.keys := by
    refine run_logOrdered ops c0 (wf_new lim n c0 h0) [] ?_ c hrun
    rw [new_keys lim n c0 h0]
    exact List.Pairwise.nil
  obtain ⟨c1, hget, hwf1, hlim1, hkeys1, hlook1, hsize1⟩ := get_spec c hwf k
  rw [if_pos hk] at hkeys1
  have habs1 : mapFind c1._map k' = none := by
    apply mapFind_none_of_lookup
    rw [hlook1, lookup_eq_none_iff c hwf]
    exact hk'
  obtain ⟨c2, hput, hwf2, _, _, hlook2, _⟩ := put_absent_spec c1 hwf1 k' v' habs1
  have hfull1 : c1._limit_size ≤ c1.size := by
    rw [hlim1, hsize1, hfull]
    exact Nat.le_refl _
  -- the evicted key: the tail of the recency order after the promotion of `k`
  have hlen : (c.keys.erase k).length = c.keys.length - 1 := List.length_erase_of_mem hk
  have hne : c.keys.erase k ≠ [] := by
    intro h
    rw [h, keys_length c hwf] at hlen
    simp at hlen
    omega
  obtain ⟨e, he⟩ : ∃ e, (c.keys.erase k).getLast? = some e :=
    ⟨(c.keys.erase k).getLast hne, List.getLast?_eq_getLast _ hne⟩
  have hlast1 : c1.keys.getLast? = some e := by
    rw [hkeys1]
    obtain ⟨a, t, hat⟩ := List.exists_cons_of_ne_nil hne
    rw [hat] at he ⊢
    rw [List.getLast?_cons_cons]
    exact he
  have hemem : e ∈ c.keys.erase k := List.mem_of_getLast?_eq_some he
  have hemem' := (List.Nodup.mem_erase_iff hwf.keys_nodup).1 hemem
  have hek' : e ≠ k' := fun h => hk' (h ▸ hemem'.2)
  have hl2 : ∀ x, lookup c2 x = if x = k' then some v' else if x = e then none else lookup c x := by
    intro x
    rw [hlook2, hlast1, hlook1]
    by_cases hx : x = k'
    · simp [hx]
    · by_cases hxe : x = e
      · simp [hx, hxe, hfull1]
      · have : ¬ e = x := fun h => hxe h.symm
        simp [hx, hxe, this]
  refine ⟨lookup c k, c1, c2, e, hget, hput, hemem'.2, hemem'.1, ?_, ?_, ?_, ?_⟩
  · intro x hx hxk hxe
    have hxm : x ∈ c.keys.erase k := (List.Nodup.mem_erase_iff hwf.keys_nodup).2 ⟨hxk, hx⟩
    exact logOrdered_last _ (c.keys.erase k)
      (List.Pairwise.sublist (List.erase_sublist _ _) hlo) e he x hxm hxe
  · obtain ⟨d, hd, _⟩ := get_spec c2 hwf2 e
    refine ⟨d, ?_⟩
    rw [hd, hl2]
    simp [hek']
  · intro x hx hxe
    have hxk' : x ≠ k' := fun h => hk' (h ▸ hx)
    obtain ⟨v, hv⟩ := Option.isSome_iff_exists.1 ((lookup_isSome_iff c hwf x).2 hx)
    obtain ⟨d, hd, _⟩ := get_spec c hwf x
    obtain ⟨d', hd', _⟩ := get_spec c2 hwf2 x
    refine ⟨v, d, d', by rw [hd, hv], ?_⟩
    rw [hd', hl2]
    simp [hxk', hxe, hv]
  · obtain ⟨d, hd, _⟩ := get_spec c2 hwf2 k'
    refine ⟨d, ?_⟩
    rw [hd, hl2]
    simp

theorem recency_promotion_witness :
    ∃ c : LRUCache Nat Nat,
      c = ⟨[(2, 3), (1, 2), (0, 1)], [(3, 30, 2), (2, 20, 1), (1, 10, 0)], 3, 3⟩
      ∧ (new 1024 3 : Except Error (LRUCache Nat Nat)) = .ok ⟨[], [], 3, 0⟩
      ∧ run ⟨[], [], 3, 0⟩ [Op.put 1 10, Op.put 2 20, Op.put 3 30] = some c
      ∧ c.size = c.limit_size ∧ 2 ≤ c.size ∧ 2 ∈ c.keys ∧ 4 ∉ c.keys
      ∧ (run c [Op.get 2, Op.put 4 40]).bind (fun d => (get d 1).map Prod.fst) = some none
      ∧ ∃ r c1 c2 e, get c 2 = some (r, c1) ∧ put c1 4 40 = some c2 ∧ e ∈ c.keys ∧ e ≠ 2
        ∧ (∀ x ∈ c.keys, x ≠ 2 → x ≠ e →
            touchAge (touchLog (⟨[], [], 3, 0⟩ : LRUCache Nat Nat) []
                [Op.put 1 10, Op.put 2 20, Op.put 3 30]) x
              < touchAge (touchLog (⟨[], [], 3, 0⟩ : LRUCache Nat Nat) []
                [Op.put 1 10, Op.put 2 20, Op.put 3 30]) e)
        ∧ (∃ d, get c2 e = some (none, d))
        ∧ (∀ x ∈ c.keys, x ≠ e →
            ∃ v d d', get c x = some (some v, d) ∧ get c2 x = some (some v, d'))
        ∧ (∃ d, get c2 4 = some (some 40, d)) :=
  ⟨_, rfl, by rfl, by decide, by decide, by decide, by decide, by decide, by decide,
    recency_promotion 1024 3 ⟨[], [], 3, 0⟩ (by rfl) [Op.put 1 10, Op.put 2 20, Op.put 3 30] _
      (by decide) (by decide) (by decide) 2 (by decide) 4 (by decide) 40⟩

/-- C5. Representation invariant: in every state reached from a freshly constructed cache by
`put`, `get` and `clear`, the recency list has no duplicate keys (and no duplicate handles), the
map has one entry per key, the number of map entries equals the length of the recency list and is
at most the capacity, a key is in the map if and only if it occurs in the recency list, and the
iterator stored with a key in the map is the handle of a list node holding that same key. -/
theorem representation_invariant (lim n : Nat) (c0 : LRUCache K V) (h0 : new lim n = .ok c0)
    (ops : List (Op K V)) (c : LRUCache K V) (hrun : run c0 ops = some c) :
    c.keys.Nodup ∧ c.handles.Nodup ∧ (c._map.map Prod.fst).Nodup
      ∧ c._map.length = c._list.length ∧ c._list.length ≤ c.limit_size ∧ c.limit_size = n
      ∧ (∀ k, k ∈ c._map.map Prod.fst ↔ k ∈ c.keys)
      ∧ (∀ e ∈ c._map, (e.2.2, e.1) ∈ c._list) := by
  obtain ⟨hwf, hlim⟩ := reachable_wf lim n c0 h0 ops c hrun
  refine ⟨hwf.keys_nodup, hwf.handles_nodup, hwf.map_nodup, hwf.length_eq, hwf.length_le, hlim,
    ?_, ?_⟩
  · intro k
    rw [mem_keys_iff c hwf k, ← not_iff_not, ← mapFind_eq_none_iff]
    cases mapFind c._map k <;> simp
  · intro e he
    exact hwf.map_to_list e.1 e.2.1 e.2.2 (mapFind_of_mem c._map hwf.map_nodup e.1 e.2 he)

theorem representation_invariant_witness :
    ∃ c : LRUCache Nat Nat, c = ⟨[(3, 3), (2, 1)], [(3, 30, 3), (1, 10, 2)], 2, 4⟩ ∧
      (new 1024 2 : Except Error (LRUCache Nat Nat)) = .ok ⟨[], [], 2, 0⟩
      ∧ run ⟨[], [], 2, 0⟩ [Op.put 1 10, Op.put 2 20, Op.get 1, Op.put 3 30] = some c
      ∧ c.keys.Nodup ∧ c.handles.Nodup ∧ (c._map.map Prod.fst).Nodup
      ∧ c._map.length = c._list.length ∧ c._list.length ≤ c.limit_size ∧ c.limit_size = 2
      ∧ (∀ k, k ∈ c._map.map Prod.fst ↔ k ∈ c.keys)
      ∧ (∀ e ∈ c._map, (e.2.2, e.1) ∈ c._list) :=
  ⟨_, rfl, by rfl, by decide, representation_invariant 1024 2 ⟨[], [], 2, 0⟩ (by rfl)
    [Op.put 1 10, Op.put 2 20, Op.get 1, Op.put 3 30] _ (by decide)⟩

/-- C7. In every reachable state, a `put(k, v)` of a key `k` absent from the cache succeeds and
leaves `k` at the head of the recency order, and a following `get(k)` returns `v`. -/
theorem put_absent_head_and_get (lim n : Nat) (c0 : LRUCache K V) (h0 : new lim n = .ok c0)
    (ops : List (Op K V)) (c : LRUCache K V) (hrun : run c0 ops = some c) (k : K) (v : V)
    (habs : k ∉ c.keys) :
    ∃ c1 c2, put c k v = some c1 ∧ c1.keys.head? = some k ∧ get c1 k = some (some v, c2) := by
  obtain ⟨hwf, _⟩ := reachable_wf lim n c0 h0 ops c hrun
  have hf : mapFind c._map k = none := by
    rw [mem_keys_iff c hwf k] at habs
    simpa using habs
  obtain ⟨c1, hput, hwf1, _, hkeys, hlook, _⟩ := put_absent_spec c hwf k v hf
  have hl : lookup c1 k = some v := by rw [hlook]; simp
  unfold lookup at hl
  obtain ⟨p, hp, hpv⟩ := Option.map_eq_some'.1 hl
  obtain ⟨c2, hget, _⟩ := get_present_spec c1 hwf1 k p.1 p.2 hp
  rw [hpv] at hget
  exact ⟨c1, c2, hput, by rw [hkeys]; rfl, hget⟩

theorem put_absent_head_and_get_witness :
    ∃ c : LRUCache Nat Nat, c = ⟨[(1, 2), (0, 1)], [(2, 20, 1), (1, 10, 0)], 2, 2⟩ ∧
      (new 1024 2 : Except Error (LRUCache Nat Nat)) = .ok ⟨[], [], 2, 0⟩
      ∧ run ⟨[], [], 2, 0⟩ [Op.put 1 10, Op.put 2 20] = some c
      ∧ 3 ∉ c.keys
      ∧ ∃ c1 c2, put c 3 30 = some c1 ∧ c1.keys.head? = some 3
          ∧ get c1 3 = some (some 30, c2) :=
  ⟨_, rfl, by rfl, by decide, by decide, put_absent_head_and_get 1024 2 ⟨[], [], 2, 0⟩ (by rfl)
    [Op.put 1 10, Op.put 2 20] _ (by decide) 3 30 (by decide)⟩

/-- C8. In every reachable state `get(k)` succeeds, returns none exactly when `k` is absent from
the cache (from the recency list, equivalently from the map), and in that case leaves the cache
state (recency list, map, capacity) unchanged. -/
theorem get_none_iff_absent (lim n : Nat) (c0 : LRUCache K V) (h0 : new lim n = .ok c0)
    (ops : List (Op K V)) (c : LRUCache K V) (hrun : run c0 ops = some c) (k : K) :
    ∃ r c1, get c k = some (r, c1) ∧ (r = none ↔ k ∉ c.keys)
      ∧ (k ∉ c.keys ↔ k ∉ c._map.map Prod.fst) ∧ (k ∉ c.keys → c1 = c) := by
  obtain ⟨hwf, _⟩ := reachable_wf lim n c0 h0 ops c hrun
  have hiff : k ∉ c.keys ↔ k ∉ c._map.map Prod.fst := by
    rw [mem_keys_iff c hwf k, ← mapFind_eq_none_iff]
    cases mapFind c._map k <;> simp
  cases hf : mapFind c._map k with
  | none =>
    have hk : k ∉ c.keys := by rw [mem_keys_iff c hwf k, hf]; simp
    exact ⟨none, c, get_absent c k hf, by simp [hk], hiff, fun _ => rfl⟩
  | some p =>
    have hk : k ∈ c.keys := by rw [mem_keys_iff c hwf k, hf]; simp
    obtain ⟨c1, hget, _⟩ := get_present_spec c hwf k p.1 p.2 hf
    exact ⟨some p.1, c1, hget, by simp [hk], hiff, fun h => absurd hk h⟩

theorem get_none_iff_absent_witness :
    ∃ c : LRUCache Nat Nat, c = ⟨[(2, 3), (1, 2)], [(3, 30, 2), (2, 20, 1)], 2, 3⟩ ∧
      (new 1024 2 : Except Error (LRUCache Nat Nat)) = .ok ⟨[], [], 2, 0⟩
      ∧ run ⟨[], [], 2, 0⟩ [Op.put 1 10, Op.put 2 20, Op.put 3 30] = some c
      ∧ ∃ r c1, get c 1 = some (r, c1) ∧ (r = none ↔ 1 ∉ c.keys)
          ∧ (1 ∉ c.keys ↔ 1 ∉ c._map.map Prod.fst) ∧ (1 ∉ c.keys → c1 = c) :=
  ⟨_, rfl, by rfl, by decide, get_none_iff_absent 1024 2 ⟨[], [], 2, 0⟩ (by rfl)
    [Op.put 1 10, Op.put 2 20, Op.put 3 30] _ (by decide) 1⟩

/-- C9 (evaluation at the failing input). With capacity 2, `put(1, 10); put(1, 20); get(1)`
returns 10: the second `put` leaves the cache as it was and the stored value is not updated. -/
theorem put_existing_key_not_updated :
    (new 1024 2 : Except Error (LRUCache Nat Nat)) = .ok ⟨[], [], 2, 0⟩
      ∧ put (⟨[], [], 2, 0⟩ : LRUCache Nat Nat) 1 10 = some ⟨[(0, 1)], [(1, 10, 0)], 2, 1⟩
      ∧ put (⟨[(0, 1)], [(1, 10, 0)], 2, 1⟩ : LRUCache Nat Nat) 1 20
          = some ⟨[(0, 1)], [(1, 10, 0)], 2, 1⟩
      ∧ get (⟨[(0, 1)], [(1, 10, 0)], 2, 1⟩ : LRUCache Nat Nat) 1
          = some (some 10, ⟨[(0, 1)], [(1, 10, 0)], 2, 1⟩) :=
  ⟨by rfl, by decide, by decide, by decide⟩

/-- C10. Clear: for every cache state and every container state, empty or not, `clear()` yields
`empty() = true` and `size() = 0`, and clearing twice gives the same state as clearing once; for
the cache the recency list and the map are both empty afterwards and `limit_size()` is
unchanged. -/
theorem clear_idempotent (c : LRUCache K V) (t : ThreadSafeContainer V) :
    c.clear.empty = true ∧ c.clear.size = 0 ∧ c.clear.clear = c.clear
      ∧ c.clear._list = [] ∧ c.clear._map = [] ∧ c.clear.limit_size = c.limit_size
      ∧ t.clear.empty = true ∧ t.clear.size = 0 ∧ t.clear.clear = t.clear :=
  ⟨rfl, rfl, rfl, rfl, rfl, rfl, rfl, rfl, rfl⟩

/-- C11. Put never fails: in every state reachable from a constructed cache (capacity > 0),
`put` returns a state; and whenever it takes the eviction branch (key absent and
`_map.size() >= _limit_size`) the recency list is non-empty, its tail key is present in the map,
and erasing the tail node from the list is defined. -/
theorem put_never_fails (lim n : Nat) (c0 : LRUCache K V) (h0 : new lim n = .ok c0)
    (ops : List (Op K V)) (c : LRUCache K V) (hrun : run c0 ops = some c) (key : K)
    (value : V) :
    0 < n ∧ (∃ c', put c key value = some c')
      ∧ (mapFind c._map key = none → c._limit_size ≤ c._map.length →
          ∃ i l, c._list.getLast? = some i ∧ i.2 ∈ c._map.map Prod.fst
            ∧ listErase c._list i.1 = some l) := by
  obtain ⟨hwf, hlim⟩ := reachable_wf lim n c0 h0 ops c hrun
  refine ⟨hlim ▸ hwf.limit_pos, ?_, ?_⟩
  · obtain ⟨c', hs, _⟩ := step_wf c hwf (Op.put key value)
    exact ⟨c', hs⟩
  · intro habs hfull
    obtain ⟨i, hi, _⟩ := put_absent_full c hwf key value habs hfull
    have himem : i ∈ c._list := List.mem_of_getLast?_eq_some hi
    obtain ⟨v, hv⟩ := hwf.list_to_map i.1 i.2 himem
    refine ⟨i, _, hi, ?_, listErase_of_mem c._list i.1 i.2 himem⟩
    exact List.mem_map.2 ⟨(i.2, (v, i.1)), mapFind_mem c._map i.2 (v, i.1) hv, rfl⟩

theorem put_never_fails_witness :
    ∃ c : LRUCache Nat Nat, c = ⟨[(1, 2), (0, 1)], [(2, 20, 1), (1, 10, 0)], 2, 2⟩ ∧
      (new 1024 2 : Except Error (LRUCache Nat Nat)) = .ok ⟨[], [], 2, 0⟩
      ∧ run ⟨[], [], 2, 0⟩ [Op.put 1 10, Op.put 2 20] = some c
      ∧ mapFind c._map 3 = none ∧ c._limit_size ≤ c._map.length
      ∧ 0 < 2 ∧ (∃ c', put c 3 30 = some c')
      ∧ (mapFind c._map 3 = none → c._limit_size ≤ c._map.length →
          ∃ i l, c._list.getLast? = some i ∧ i.2 ∈ c._map.map Prod.fst
            ∧ listErase c._list i.1 = some l) :=
  ⟨_, rfl, by rfl, by decide, by decide, by decide,
    put_never_fails 1024 2 ⟨[], [], 2, 0⟩ (by rfl) [Op.put 1 10, Op.put 2 20] _ (by decide) 3 30⟩

/-- C12. Size after put: in every reachable state a `put` of an absent key succeeds, increases
`size()` by exactly 1 when `size() < limit_size()`, and leaves `size()` equal to `limit_size()`
when the cache is full; and putting `m` pairwise distinct keys into the fresh cache of capacity
`n` gives `size() = min(m, n)`. -/
theorem put_absent_size (lim n : Nat) (c0 : LRUCache K V) (h0 : new lim n = .ok c0)
    (ops : List (Op K V)) (c : LRUCache K V) (hrun : run c0 ops = some c) :
    (∀ (k : K) (v : V), k ∉ c.keys → ∃ c', put c k v = some c'
        ∧ (c.size < c.limit_size → c'.size = c.size + 1)
        ∧ (c.size = c.limit_size → c'.size = c.limit_size))
      ∧ (∀ kvs : List (K × V), (kvs.map Prod.fst).Nodup →
          ∃ c1, run c0 (kvs.map (fun p => Op.put p.1 p.2)) = some c1
            ∧ c1.size = min kvs.length n) := by
  obtain ⟨hwf, _⟩ := reachable_wf lim n c0 h0 ops c hrun
  constructor
  · intro k v hk
    have hf : mapFind c._map k = none :=
      mapFind_none_of_lookup c k ((lookup_eq_none_iff c hwf k).2 hk)
    obtain ⟨c', hput, _, _, _, _, hsize⟩ := put_absent_spec c hwf k v hf
    refine ⟨c', hput, ?_, ?_⟩
    · intro hlt
      have : ¬ c._limit_size ≤ c.size := Nat.not_le.2 hlt
      rw [hsize, if_neg this]
    · intro heq
      have : c._limit_size ≤ c.size := Nat.le_of_eq heq.symm
      rw [hsize, if_pos this]
      exact heq
  · intro kvs hnd
    have hwf0 := wf_new lim n c0 h0
    have hk0 := new_keys lim n c0 h0
    obtain ⟨c1, hrun1, _, _, hsize1⟩ := run_puts_size kvs c0 hwf0 hnd
      (fun x _ h => by rw [hk0] at h; exact absurd h (List.not_mem_nil x))
    refine ⟨c1, hrun1, ?_⟩
    have hs0 : c0.size = 0 := by
      rw [← keys_length c0 hwf0, hk0]
      rfl
    have hl0 : c0._limit_size = n := (reachable_wf lim n c0 h0 [] c0 rfl).2
    rw [hsize1, hs0, hl0, Nat.zero_add]

theorem put_absent_size_witness :
    ∃ c : LRUCache Nat Nat, c = ⟨[(0, 1)], [(1, 10, 0)], 2, 1⟩ ∧
      (new 1024 2 : Except Error (LRUCache Nat Nat)) = .ok ⟨[], [], 2, 0⟩
      ∧ run ⟨[], [], 2, 0⟩ [Op.put 1 10] = some c
      ∧ 5 ∉ c.keys ∧ c.size < c.limit_size
      ∧ (([(1, 10), (2, 20), (3, 30)] : List (Nat × Nat)).map Prod.fst).Nodup
      ∧ (∃ c', put c 5 50 = some c'
          ∧ (c.size < c.limit_size → c'.size = c.size + 1)
          ∧ (c.size = c.limit_size → c'.size = c.limit_size))
      ∧ (∃ c1, run (⟨[], [], 2, 0⟩ : LRUCache Nat Nat)
            (([(1, 10), (2, 20), (3, 30)] : List (Nat × Nat)).map (fun p => Op.put p.1 p.2))
              = some c1
          ∧ c1.size = min ([(1, 10), (2, 20), (3, 30)] : List (Nat × Nat)).length 2) :=
  ⟨_, rfl, by rfl, by decide, by decide, by decide, by decide,
    (put_absent_size 1024 2 ⟨[], [], 2, 0⟩ (by rfl) [Op.put 1 10] ⟨[(0, 1)], [(1, 10, 0)], 2, 1⟩
      (by decide)).1 5 50 (by decide),
    (put_absent_size 1024 2 ⟨[], [], 2, 0⟩ (by rfl) [Op.put 1 10] ⟨[(0, 1)], [(1, 10, 0)], 2, 1⟩
      (by decide)).2
      [(1, 10), (2, 20), (3, 30)] (by decide)⟩

/-- C15 (as the claim states it, refuted). With `max_size() = 2 ^ 61 - 1` (a vector of `int`
on a 64-bit platform), on the container holding `[1]` with capacity 1, `reserve(2 ^ 64 - 1)`
throws `std::length_error` and leaves the container as it was: the capacity is still 1, not at
least `2 ^ 64 - 1`. -/
theorem reserve_beyond_max_size_throws :
    (⟨⟨[1], 1⟩⟩ : ThreadSafeContainer Nat).reserve (2 ^ 61 - 1) (2 ^ 44) (2 ^ 64 - 1)
        = .threw .length_error ⟨⟨[1], 1⟩⟩
      ∧ ¬ (2 ^ 64 - 1 ≤ (⟨⟨[1], 1⟩⟩ : ThreadSafeContainer Nat).capacity)
      ∧ ¬ ∃ t', (⟨⟨[1], 1⟩⟩ : ThreadSafeContainer Nat).reserve (2 ^ 61 - 1) (2 ^ 44) (2 ^ 64 - 1)
          = .returned t' := by
  have h : (⟨⟨[1], 1⟩⟩ : ThreadSafeContainer Nat).reserve (2 ^ 61 - 1) (2 ^ 44) (2 ^ 64 - 1)
      = .threw .length_error ⟨⟨[1], 1⟩⟩ := by
    unfold ThreadSafeContainer.reserve
    rw [if_pos (by decide)]
  refine ⟨h, by decide, ?_⟩
  rintro ⟨t', ht⟩
  rw [h] at ht
  exact Outcome.noConfusion ht

/-- C15 (amended). For every container and every `n`: when `n <= max_size()` and either the
capacity is already at least `n` or the allocator can provide storage for `n` elements,
`reserve(n)` returns, leaves `size()` and the value of every element unchanged, and afterwards
`capacity() >= n`; when `n > max_size()` it throws `std::length_error`, and when the storage
cannot be allocated it throws `std::bad_alloc`, in both cases leaving the container (size,
elements and capacity) as it was. -/
theorem reserve_keeps_elements (max_size max_alloc : Nat) (t : ThreadSafeContainer V)
    (n : Nat) :
    (n ≤ max_size → (n ≤ t.capacity ∨ n ≤ max_alloc) →
        ∃ t', t.reserve max_size max_alloc n = .returned t'
          ∧ t'.size = t.size
          ∧ t'._container.elems = t._container.elems
          ∧ (∀ i, t'.subscript i = t.subscript i)
          ∧ n ≤ t'.capacity)
      ∧ (max_size < n → t.reserve max_size max_alloc n = .threw .length_error t)
      ∧ (n ≤ max_size → t.capacity < n → max_alloc < n →
          t.reserve max_size max_alloc n = .threw .bad_alloc t) := by
  refine ⟨?_, ?_, ?_⟩
  · intro hms hfit
    have h1 : ¬ max_size < n := Nat.not_lt.2 hms
    unfold ThreadSafeContainer.capacity at hfit
    by_cases hcap : t._container.cap < n
    · have h2 : ¬ max_alloc < n := by
        rcases hfit with h | h
        · exact absurd hcap (Nat.not_lt.2 h)
        · exact Nat.not_lt.2 h
      refine ⟨{ _container := { t._container with cap := n } }, ?_, rfl, rfl, fun _ => rfl,
        Nat.le_refl n⟩
      unfold ThreadSafeContainer.reserve
      rw [if_neg h1, if_pos hcap, if_neg h2]
    · refine ⟨t, ?_, rfl, rfl, fun _ => rfl, Nat.le_of_not_lt hcap⟩
      unfold ThreadSafeContainer.reserve
      rw [if_neg h1, if_neg hcap]
  · intro hms
    unfold ThreadSafeContainer.reserve
    rw [if_pos hms]
  · intro hms hcap hbig
    unfold ThreadSafeContainer.capacity at hcap
    unfold ThreadSafeContainer.reserve
    rw [if_neg (Nat.not_lt.2 hms), if_pos hcap, if_pos hbig]

theorem reserve_keeps_elements_witness :
    100 ≤ 2 ^ 61 - 1
      ∧ (100 ≤ (⟨⟨[1, 2], 2⟩⟩ : ThreadSafeContainer Nat).capacity ∨ 100 ≤ 2 ^ 44)
      ∧ (⟨⟨[1, 2], 2⟩⟩ : ThreadSafeContainer Nat).reserve (2 ^ 61 - 1) (2 ^ 44) 100
          = .returned ⟨⟨[1, 2], 100⟩⟩
      ∧ (∃ t', (⟨⟨[1, 2], 2⟩⟩ : ThreadSafeContainer Nat).reserve (2 ^ 61 - 1) (2 ^ 44) 100
            = .returned t'
          ∧ t'.size = (⟨⟨[1, 2], 2⟩⟩ : ThreadSafeContainer Nat).size
          ∧ t'._container.elems = (⟨⟨[1, 2], 2⟩⟩ : ThreadSafeContainer Nat)._container.elems
          ∧ (∀ i, t'.subscript i = (⟨⟨[1, 2], 2⟩⟩ : ThreadSafeContainer Nat).subscript i)
          ∧ 100 ≤ t'.capacity)
      ∧ 2 ^ 61 - 1 < 2 ^ 64 - 1
      ∧ (⟨⟨[1, 2], 2⟩⟩ : ThreadSafeContainer Nat).reserve (2 ^ 61 - 1) (2 ^ 44) (2 ^ 64 - 1)
          = .threw .length_error ⟨⟨[1, 2], 2⟩⟩
      ∧ 2 ^ 50 ≤ 2 ^ 61 - 1 ∧ (⟨⟨[1, 2], 2⟩⟩ : ThreadSafeContainer Nat).capacity < 2 ^ 50
      ∧ 2 ^ 44 < 2 ^ 50
      ∧ (⟨⟨[1, 2], 2⟩⟩ : ThreadSafeContainer Nat).reserve (2 ^ 61 - 1) (2 ^ 44) (2 ^ 50)
          = .threw .bad_alloc ⟨⟨[1, 2], 2⟩⟩ :=
  ⟨by decide, Or.inr (by decide),
    by decide,
    (reserve_keeps_elements (2 ^ 61 - 1) (2 ^ 44) ⟨⟨[1, 2], 2⟩⟩ 100).1 (by decide)
      (Or.inr (by decide)),
    by decide,
    (reserve_keeps_elements (2 ^ 61 - 1) (2 ^ 44) ⟨⟨[1, 2], 2⟩⟩ (2 ^ 64 - 1)).2.1 (by decide),
    by decide, by decide, by decide,
    (reserve_keeps_elements (2 ^ 61 - 1) (2 ^ 44) ⟨⟨[1, 2], 2⟩⟩ (2 ^ 50)).2.2 (by decide)
      (by decide) (by decide)⟩

/-- C18. Get of a present key: in every reachable state, `get(k)` of a present key `k` returns
the value stored for `k` in the map and leaves the recency order equal to `k` followed by the
previous recency order with `k` removed, so the keys other than `k` keep their relative order;
when `k` is already at the head the whole state (recency list and map) is unchanged. -/
theorem get_present_moves_to_front (lim n : Nat) (c0 : LRUCache K V) (h0 : new lim n = .ok c0)
    (ops : List (Op K V)) (c : LRUCache K V) (hrun : run c0 ops = some c) (k : K)
    (hk : k ∈ c.keys) :
    ∃ v j c', mapFind c._map k = some (v, j) ∧ get c k = some (some v, c')
      ∧ c'.keys = k :: c.keys.erase k
      ∧ c'.keys.filter (fun x => x != k) = c.keys.filter (fun x => x != k)
      ∧ (c.keys.head? = some k → c' = c) := by
  obtain ⟨hwf, _⟩ := reachable_wf lim n c0 h0 ops c hrun
  obtain ⟨p, hp⟩ := Option.isSome_iff_exists.1 ((mem_keys_iff c hwf k).1 hk)
  obtain ⟨c', hget, hwf', _, hkeys, _, _, hhead⟩ := get_present_spec c hwf k p.1 p.2 hp
  refine ⟨p.1, p.2, c', hp, hget, hkeys, ?_, hhead⟩
  rw [← List.Nodup.erase_eq_filter hwf'.keys_nodup k,
    ← List.Nodup.erase_eq_filter hwf.keys_nodup k, hkeys]
  simp

theorem get_present_moves_to_front_witness :
    ∃ c : LRUCache Nat Nat,
      c = ⟨[(2, 3), (1, 2), (0, 1)], [(3, 30, 2), (2, 20, 1), (1, 10, 0)], 3, 3⟩
      ∧ (new 1024 3 : Except Error (LRUCache Nat Nat)) = .ok ⟨[], [], 3, 0⟩
      ∧ run ⟨[], [], 3, 0⟩ [Op.put 1 10, Op.put 2 20, Op.put 3 30] = some c
      ∧ 1 ∈ c.keys
      ∧ (get c 1).map (fun r => (r.1, r.2.keys)) = some (some 10, [1, 3, 2])
      ∧ ∃ v j c', mapFind c._map 1 = some (v, j) ∧ get c 1 = some (some v, c')
        ∧ c'.keys = 1 :: c.keys.erase 1
        ∧ c'.keys.filter (fun x => x != 1) = c.keys.filter (fun x => x != 1)
        ∧ (c.keys.head? = some 1 → c' = c) :=
  ⟨_, rfl, by rfl, by decide, by decide, by decide,
    get_present_moves_to_front 1024 3 ⟨[], [], 3, 0⟩ (by rfl)
      [Op.put 1 10, Op.put 2 20, Op.put 3 30] _ (by decide) 1 (by decide)⟩

/-- C19. Get preserves the contents: in every reachable state and for every key `k`, `get(k)`
succeeds and changes neither the set of keys, nor `size()`, nor `limit_size()`, nor the value
stored for any key; for every key `j`, `get(j)` after `get(k)` returns what `get(j)` returns
before it. -/
theorem get_preserves_contents (lim n : Nat) (c0 : LRUCache K V) (h0 : new lim n = .ok c0)
    (ops : List (Op K V)) (c : LRUCache K V) (hrun : run c0 ops = some c) (k : K) :
    ∃ r c', get c k = some (r, c')
      ∧ (∀ x, x ∈ c'.keys ↔ x ∈ c.keys)
      ∧ c'.size = c.size ∧ c'.limit_size = c.limit_size
      ∧ (∀ x, lookup c' x = lookup c x)
      ∧ (∀ j, ∃ rj d d', get c j = some (rj, d) ∧ get c' j = some (rj, d')) := by
  obtain ⟨hwf, _⟩ := reachable_wf lim n c0 h0 ops c hrun
  obtain ⟨c', hget, hwf', hlim, _, hlook, hsize⟩ := get_spec c hwf k
  refine ⟨lookup c k, c', hget, ?_, hsize, hlim, hlook, ?_⟩
  · intro x
    rw [← lookup_isSome_iff c' hwf' x, ← lookup_isSome_iff c hwf x, hlook]
  · intro j
    obtain ⟨d, hd, _⟩ := get_spec c hwf j
    obtain ⟨d', hd', _⟩ := get_spec c' hwf' j
    exact ⟨lookup c j, d, d', hd, by rw [hd', hlook]⟩

theorem get_preserves_contents_witness :
    ∃ c : LRUCache Nat Nat,
      c = ⟨[(2, 3), (1, 2), (0, 1)], [(3, 30, 2), (2, 20, 1), (1, 10, 0)], 3, 3⟩
      ∧ (new 1024 3 : Except Error (LRUCache Nat Nat)) = .ok ⟨[], [], 3, 0⟩
      ∧ run ⟨[], [], 3, 0⟩ [Op.put 1 10, Op.put 2 20, Op.put 3 30] = some c
      ∧ ∃ r c', get c 2 = some (r, c')
        ∧ (∀ x, x ∈ c'.keys ↔ x ∈ c.keys)
        ∧ c'.size = c.size ∧ c'.limit_size = c.limit_size
        ∧ (∀ x, lookup c' x = lookup c x)
        ∧ (∀ j, ∃ rj d d', get c j = some (rj, d) ∧ get c' j = some (rj, d')) :=
  ⟨_, rfl, by rfl, by decide,
    get_preserves_contents 1024 3 ⟨[], [], 3, 0⟩ (by rfl)
      [Op.put 1 10, Op.put 2 20, Op.put 3 30] _ (by decide) 2⟩

/-- C20. Refinement: for every capacity `n > 0` (whose bucket array the allocator can provide,
`n <= lim`) and every sequence of `put`, `get` and `clear` calls, the list-plus-map cache
constructed with capacity `n` makes every call successfully and
every `get` result and every `size()` and `empty()` result along the run equals that of the
reference cache of capacity `n` (one recency-ordered list of pairs: put of an absent key drops
the last pair when full and prepends the new pair, put of a present key does nothing, get of a
present key moves its pair to the front). -/
theorem refines_reference_model (lim n : Nat) (hn : 0 < n) (hfit : n ≤ lim)
    (ops : List (Op K V)) :
    ∃ c0 : LRUCache K V, new lim n = .ok c0
      ∧ LRUCache.observe c0 ops = some ((RefCache.new n : RefCache K V).observe ops) := by
  refine ⟨_, new_ok lim n hn hfit, ?_⟩
  refine represents_observe ops _ _ (wf_new lim n _ (new_ok lim n hn hfit)) ?_
  exact ⟨rfl, rfl, fun _ hp => absurd hp (List.not_mem_nil _)⟩

theorem refines_reference_model_witness :
    0 < 2
      ∧ (RefCache.new 2 : RefCache Nat Nat).observe
          [Op.put 1 10, Op.put 2 20, Op.put 1 11, Op.get 1, Op.put 3 30, Op.get 2, Op.clear]
        = [(none, 1, false), (none, 2, false), (none, 2, false), (some (some 10), 2, false),
            (none, 2, false), (some none, 2, false), (none, 0, true)]
      ∧ 2 ≤ 1024
      ∧ ∃ c0 : LRUCache Nat Nat, new 1024 2 = .ok c0
        ∧ LRUCache.observe c0
            [Op.put 1 10, Op.put 2 20, Op.put 1 11, Op.get 1, Op.put 3 30, Op.get 2, Op.clear]
          = some ((RefCache.new 2 : RefCache Nat Nat).observe
            [Op.put 1 10, Op.put 2 20, Op.put 1 11, Op.get 1, Op.put 3 30, Op.get 2, Op.clear]) :=
  ⟨by decide, by decide, by decide, refines_reference_model 1024 2 (by decide) (by decide) _⟩

end claims

end GeneralUtils
